import Mathlib

/-!
Verification of the matrixmath flat-buffer `Matrix` class.

The numeric values of the JavaScript code are modelled by `JsVal`: exact
rationals stand in for finite doubles (rounding is out of scope), and the
special values `Infinity`/`-Infinity`, `NaN` and `undefined` (the value of a
missing array slot) are modelled explicitly, because the library's control
flow (`=== 0` guards, truthiness tests, strict equality in `equals`) is
sensitive to them.

A matrix instance is a record of its `rows`, `cols` and `length` fields plus
the flat row-major value store; reading index `i` of the store yields
`undefined` beyond the stored prefix, as in JavaScript.  The array pool of
the `arrays` module is semantically transparent (buffers are handed out with
every slot `undefined`, exactly like fresh arrays), so pooled buffers are
modelled as fresh lists of `undefined`.
-/

/-- Model of a JavaScript number-or-undefined value: a finite number (exact
rational), `Infinity` (`inf true`) or `-Infinity` (`inf false`), `NaN`, or
`undefined`.  Negative zero is identified with zero. -/
inductive JsVal where
  | num (q : ℚ)
  | inf (pos : Bool)
  | nan
  | undef
  deriving DecidableEq, Repr

/-- ToNumber coercion applied by arithmetic operators: `undefined` becomes
`NaN`, numbers are unchanged. -/
def toNumber : JsVal → JsVal
  | JsVal.undef => .nan
  | v => v

/-- JavaScript truthiness of a value: `0`, `NaN` and `undefined` are falsy,
every other number (including the infinities) is truthy. -/
def truthy : JsVal → Bool
  | .num q => q ≠ 0
  | .inf _ => true
  | _ => false

/-- JavaScript strict equality `===` on our values: `NaN` is unequal to
everything (including itself), `undefined === undefined` holds. -/
def jsEq : JsVal → JsVal → Bool
  | .num a, .num b => a == b
  | .inf a, .inf b => a == b
  | JsVal.undef, JsVal.undef => true
  | _, _ => false

/-- JavaScript addition. -/
def jsAdd (x y : JsVal) : JsVal :=
  match toNumber x, toNumber y with
  | .num a, .num b => .num (a + b)
  | .num _, .inf p => .inf p
  | .inf p, .num _ => .inf p
  | .inf p, .inf q => if p = q then .inf p else .nan
  | _, _ => .nan

/-- JavaScript unary negation. -/
def jsNeg (x : JsVal) : JsVal :=
  match toNumber x with
  | .num a => .num (-a)
  | .inf p => .inf !p
  | _ => .nan

/-- JavaScript subtraction (`x - y` behaves as `x + (-y)`). -/
def jsSub (x y : JsVal) : JsVal := jsAdd x (jsNeg y)

/-- JavaScript multiplication; `0 * Infinity` is `NaN`. -/
def jsMul (x y : JsVal) : JsVal :=
  match toNumber x, toNumber y with
  | .num a, .num b => .num (a * b)
  | .num a, .inf p => if a = 0 then .nan else .inf (decide (0 < a) == p)
  | .inf p, .num a => if a = 0 then .nan else .inf (decide (0 < a) == p)
  | .inf p, .inf q => .inf (p == q)
  | _, _ => .nan

/-- JavaScript division; a nonzero finite number divided by zero gives a
signed infinity, `0 / 0` gives `NaN`, finite over infinite gives `0`. -/
def jsDiv (x y : JsVal) : JsVal :=
  match toNumber x, toNumber y with
  | .num a, .num b =>
      if b = 0 then (if a = 0 then .nan else .inf (decide (0 < a)))
      else .num (a / b)
  | .num _, .inf _ => .num 0
  | .inf p, .num b => .inf (p == decide (0 ≤ b))
  | .inf _, .inf _ => .nan
  | _, _ => .nan

/-- A `Matrix` instance of the flat-buffer variant: the `rows`, `cols` and
`length` fields together with the numeric property store `values`
(row-major).  Reading beyond `values` yields `undefined`. -/
structure Mat where
  rows : ℕ
  cols : ℕ
  length : ℕ
  values : List JsVal
  deriving DecidableEq, Repr

/-- Property read `this[i]`. -/
def Mat.get (m : Mat) (i : ℕ) : JsVal := m.values.getD i JsVal.undef

/-- Writing a list of consecutive values starting at index 0 into an existing
store, keeping whatever lies beyond the written range. -/
def writeFront (base new : List JsVal) : List JsVal := new ++ base.drop new.length

/-- The data written by `setIdentityData`: `this[i] = i % (cols + 1) ? 0 : 1`. -/
def identityValues (len cols : ℕ) : List JsVal :=
  (List.range len).map fun i => if i % (cols + 1) = 0 then JsVal.num 1 else JsVal.num 0

/-- The constructor `new Matrix(rows, cols, setInitial)` (both sizes given
explicitly, as at every internal call site): square matrices are initialised
with the identity pattern, rectangular ones with zeros, and with
`setInitial = false` no slot is set at all. -/
def newMatrix (optRows optCols : ℕ) (setInitial : Bool) : Mat :=
  let len := optRows * optCols
  if setInitial then
    if optRows = optCols then ⟨optRows, optCols, len, identityValues len optCols⟩
    else ⟨optRows, optCols, len, List.replicate len (JsVal.num 0)⟩
  else ⟨optRows, optCols, len, List.replicate len JsVal.undef⟩

/-- JavaScript `a || b` on a possibly-missing number field: `undefined` and
`0` both fall back to the default. -/
def jsOrNat : Option ℕ → ℕ → ℕ
  | none, d => d
  | some v, d => if v = 0 then d else v

/-- `Matrix.prototype.setData` with an array argument and optional row/column
hints.  When the supplied length differs from the current one the call is a
no-op unless both hints are supplied and consistent; on success the new data
replaces the store (stale trailing slots are deleted by the clean-out loop)
and the dimension fields are updated through `||`. -/
def Mat.setData (m : Mat) (data : List JsVal) (optRows optCols : Option ℕ) : Mat :=
  if data.length ≠ m.length ∧ (optRows.isNone ∨ optCols.isNone) then m
  else if data.length ≠ m.length ∧ optRows.getD 0 * optCols.getD 0 ≠ data.length then m
  else ⟨jsOrNat optRows m.rows, jsOrNat optCols m.cols, data.length, data⟩

/-- `Matrix.prototype.copy`: value-copies `src` into `m`; the dimension
fields are only updated when the lengths differ. -/
def Mat.copy (m src : Mat) : Mat :=
  let vals := (List.range src.length).map src.get
  if src.length = m.length then ⟨m.rows, m.cols, m.length, vals⟩
  else ⟨src.rows, src.cols, src.length, vals⟩

/-- `Matrix.prototype.clone`: a fresh uninitialised shell of the same
dimensions, then `copy`. -/
def Mat.clone (m : Mat) : Mat := (newMatrix m.rows m.cols false).copy m

/-- One argument of `Matrix.prototype.add`: skipped if its shape differs,
otherwise element-wise `+=` over all `length` positions. -/
def Mat.addOne (m other : Mat) : Mat :=
  if other.cols ≠ m.cols ∨ other.rows ≠ m.rows then m
  else ⟨m.rows, m.cols, m.length,
    writeFront m.values ((List.range m.length).map fun n => jsAdd (m.get n) (other.get n))⟩

/-- `Matrix.prototype.add`: left-to-right fold of `addOne`. -/
def Mat.add (m : Mat) (args : List Mat) : Mat := args.foldl Mat.addOne m

/-- One argument of `Matrix.prototype.subtract`. -/
def Mat.subtractOne (m other : Mat) : Mat :=
  if other.cols ≠ m.cols ∨ other.rows ≠ m.rows then m
  else ⟨m.rows, m.cols, m.length,
    writeFront m.values ((List.range m.length).map fun n => jsSub (m.get n) (other.get n))⟩

/-- `Matrix.prototype.subtract`: left-to-right fold of `subtractOne`. -/
def Mat.subtract (m : Mat) (args : List Mat) : Mat := args.foldl Mat.subtractOne m

/-- Static `Matrix.add`: clone the first matrix, then add into the clone. -/
def staticAdd (first : Mat) (rest : List Mat) : Mat := first.clone.add rest

/-- Static `Matrix.subtract`. -/
def staticSubtract (first : Mat) (rest : List Mat) : Mat := first.clone.subtract rest

/-- `Matrix.prototype.isIdentity`: a purely positional test of the store
against the identity pattern (also defined, and occasionally true, for
non-square matrices). -/
def Mat.isIdentity (m : Mat) : Bool :=
  (List.range m.length).all fun i =>
    jsEq (m.get i) (if i % (m.cols + 1) = 0 then JsVal.num 1 else JsVal.num 0)

/-- An argument of `multiply`: a matrix or a number. -/
inductive MulArg where
  | mat (m : Mat)
  | scalar (x : JsVal)
  deriving DecidableEq, Repr

/-- The `if (!tempData[outputIndex]) tempData[outputIndex] = 0;` reset that
runs before every accumulation step of the product loop. -/
def truthyReset (v : JsVal) : JsVal := if truthy v then v else JsVal.num 0

/-- One output cell of the matrix-product triple loop: accumulate over the
shared dimension, resetting falsy intermediate values to `0` first. -/
def cellVal (acc B : Mat) (row ccol : ℕ) : JsVal :=
  (List.range B.rows).foldl
    (fun v crow =>
      jsAdd (truthyReset v) (jsMul (acc.get (row * acc.cols + crow)) (B.get (crow * B.cols + ccol))))
    JsVal.undef

/-- One step of the multiplication fold (lines of the main argument loop):
a number argument scales every slot via `v * (scale * (1/scale)) / (1/scale)`;
a matrix argument is skipped when it passes `isIdentity` or when its row
count differs from the running result's column count, and otherwise the
running result becomes the `rows × B.cols` product buffer. -/
def mulFoldStep (acc : Mat) (a : MulArg) : Mat :=
  match a with
  | .scalar x =>
      let factor := jsDiv (JsVal.num 1) x
      ⟨acc.rows, acc.cols, acc.length,
        acc.values.map fun v => jsDiv (jsMul v (jsMul x factor)) factor⟩
  | .mat B =>
      if B.isIdentity then acc
      else if acc.cols ≠ B.rows then acc
      else
        ⟨acc.rows, B.cols, acc.rows * B.cols,
          (List.range (acc.rows * B.cols)).map fun i => cellVal acc B (i / B.cols) (i % B.cols)⟩

/-- The plain left-to-right fold of `multiply` without the identity
short-circuit: snapshot this matrix's data, fold the arguments, and write
the result back through `setData`. -/
def Mat.multiplyPlain (self : Mat) (args : List MulArg) : Mat :=
  let acc0 : Mat := ⟨self.rows, self.cols, self.length, (List.range self.length).map self.get⟩
  let acc := args.foldl mulFoldStep acc0
  self.setData acc.values (some acc.rows) (some acc.cols)

/-- The leading-argument scan of the identity short-circuit.  `none` means
the method returns `this` unchanged (the scan ran off the end, or stopped at
a falsy number such as `0`); otherwise it yields the possibly-`copy`-updated
receiver and the remaining argument list for the fold. -/
def shortcutLoop (self : Mat) : List MulArg → Option (Mat × List MulArg)
  | [] => none
  | .scalar x :: rest =>
      if jsEq x (JsVal.num 1) then shortcutLoop self rest
      else if truthy x then some (self, .scalar x :: rest) else none
  | .mat B :: rest =>
      if B.isIdentity then shortcutLoop self rest
      else some (self.copy B, rest)

/-- `Matrix.prototype.multiply`: the identity short-circuit followed by the
plain fold. -/
def Mat.multiply (self : Mat) (args : List MulArg) : Mat :=
  if self.isIdentity then
    match shortcutLoop self args with
    | none => self
    | some (self2, rest) => self2.multiplyPlain rest
  else self.multiplyPlain args

/-- Static `Matrix.multiply`: clone the first matrix, then multiply into the
clone. -/
def staticMultiply (first : Mat) (rest : List MulArg) : Mat := first.clone.multiply rest

/-- `Matrix.prototype.power`: non-square matrices are returned unchanged;
otherwise `new Array(power - 1)` throws a `RangeError` (modelled as `none`)
for a negative length, and the chain multiplies `power - 1` clones. -/
def Mat.power (m : Mat) (p : ℤ) : Option Mat :=
  if m.rows ≠ m.cols then some m
  else if p - 1 < 0 then none
  else some (m.multiply (List.replicate (p - 1).toNat (.mat m.clone)))

/-- The `removeRow` helper: `splice(row * colsPerRow, colsPerRow)`. -/
def removeRow (values : List JsVal) (row colsPerRow : ℕ) : List JsVal :=
  values.take (row * colsPerRow) ++ values.drop (row * colsPerRow + colsPerRow)

/-- The `removeColumn` helper: keep, in order, the elements whose index is
not congruent to `col` modulo `colsPerRow`. -/
def removeColumn (values : List JsVal) (col colsPerRow : ℕ) : List JsVal :=
  ((List.range values.length).filter fun i => i % colsPerRow ≠ col).map
    fun i => values.getD i JsVal.undef

/-- The minor data used by `getDeterminant` and `invert`: remove one row,
then one column (both with the original column count). -/
def minorValues (values : List JsVal) (row col cols : ℕ) : List JsVal :=
  removeColumn (removeRow values row cols) col cols

/-- The determinant computation of `getDeterminant` on a square matrix of a
given size: hardcoded closed forms for sizes 1–3, first-row Laplace
expansion for size ≥ 4 (recursing through the scratch matrix, whose
dimensions are `size - 1`), and JavaScript `undefined` for size 0 (the
function falls through without returning). -/
def detVal : ℕ → List JsVal → JsVal
  | 0, _ => JsVal.undef
  | 1, v => v.getD 0 JsVal.undef
  | 2, v =>
      jsSub (jsMul (v.getD 0 JsVal.undef) (v.getD 3 JsVal.undef)) (jsMul (v.getD 1 JsVal.undef) (v.getD 2 JsVal.undef))
  | 3, v =>
      let a := v.getD 0 JsVal.undef
      let b := v.getD 1 JsVal.undef
      let c := v.getD 2 JsVal.undef
      let d := v.getD 3 JsVal.undef
      let e := v.getD 4 JsVal.undef
      let f := v.getD 5 JsVal.undef
      let g := v.getD 6 JsVal.undef
      let h := v.getD 7 JsVal.undef
      let i := v.getD 8 JsVal.undef
      jsAdd
        (jsSub (jsMul a (jsSub (jsMul e i) (jsMul f h)))
          (jsMul b (jsSub (jsMul d i) (jsMul f g))))
        (jsMul c (jsSub (jsMul d h) (jsMul e g)))
  | n + 4, v =>
      (List.range (n + 4)).foldl
        (fun result col =>
          jsAdd result
            (jsMul
              (jsMul (if col % 2 = 1 then JsVal.num (-1) else JsVal.num 1) (v.getD col JsVal.undef))
              (detVal (n + 3) (minorValues v 0 col (n + 4)))))
        (JsVal.num 0)

/-- `Matrix.prototype.getDeterminant`: `null` (`none`) for non-square
matrices, otherwise the value of the size-directed computation. -/
def Mat.getDeterminant (m : Mat) : Option JsVal :=
  if m.rows ≠ m.cols then none else some (detVal m.rows m.values)

/-- `Matrix.prototype.equals` applied to another matrix: shape equality and
element-wise strict equality. -/
def Mat.equals (m input : Mat) : Bool :=
  if m.rows ≠ input.rows ∨ m.cols ≠ input.cols then false
  else (List.range m.length).all fun i => jsEq (m.get i) (input.get i)

/-- `Matrix.prototype.transpose`: scatter the values into a pooled buffer of
the current `length` and write it back through `setData` with the swapped
dimension hints. -/
def Mat.transpose (m : Mat) : Mat :=
  let written := (List.range (m.cols * m.rows)).map fun i =>
    m.get ((i % m.rows) * m.cols + i / m.rows)
  m.setData (written ++ List.replicate (m.length - m.cols * m.rows) JsVal.undef)
    (some m.cols) (some m.rows)

/-- One cofactor of the general `invert` path: the determinant of the minor
(computed through the scratch matrix, whose dimension fields come from
`setData`'s `rows || old` fallback — for a 1×1 matrix the hint `0` is falsy,
so the scratch keeps dimension 1 over an empty store), with the checkerboard
sign flip. -/
def cofactorVal (m : Mat) (row col : ℕ) : JsVal :=
  let minor := minorValues m.values row col m.cols
  let subDim := if m.rows - 1 = 0 then m.rows else m.rows - 1
  let d := detVal subDim minor
  if (decide (row % 2 = 1)) != (decide (col % 2 = 1)) then jsMul d (JsVal.num (-1)) else d

/-- `Matrix.prototype.invert`: unchanged for non-square matrices; the closed
2×2 form guarded by `determinant === 0`; otherwise the matrix of cofactors,
the first-row determinant `Σ this[n] * cofactor[n]` guarded by `=== 0`, and
the adjugate (transposed cofactors) scaled by `1 / determinant` through
`multiply`, written back into the store. -/
def Mat.invert (m : Mat) : Mat :=
  if m.rows ≠ m.cols then m
  else if m.rows = 2 then
    let det := detVal m.rows m.values
    if det = JsVal.num 0 then m
    else
      let invDet := jsDiv (JsVal.num 1) det
      ⟨m.rows, m.cols, m.length,
        writeFront m.values
          [jsMul invDet (m.get 3), jsMul invDet (jsNeg (m.get 1)),
           jsMul invDet (jsNeg (m.get 2)), jsMul invDet (m.get 0)]⟩
  else
    let n := m.rows
    let cofValues := (List.range (n * n)).map fun i => cofactorVal m (i / n) (i % n)
    let origDet := (List.range n).foldl
      (fun acc j => jsAdd acc (jsMul (m.get j) (cofValues.getD j JsVal.undef))) (JsVal.num 0)
    if origDet = JsVal.num 0 then m
    else
      let cofMat : Mat := ⟨n, n, n * n, cofValues⟩
      let adjMat := cofMat.transpose
      let product := adjMat.multiply [.scalar (jsDiv (JsVal.num 1) origDet)]
      ⟨m.rows, m.cols, m.length, writeFront m.values product.values⟩

/-- A finite-valued matrix built from a rational entry function (row-major). -/
def fnToList (n : ℕ) (f : ℕ → ℕ → ℚ) : List JsVal :=
  (List.range (n * n)).map fun i => JsVal.num (f (i / n) (i % n))

/-- The `Mat` instance of a square rational entry function. -/
def matOfFn (n : ℕ) (f : ℕ → ℕ → ℚ) : Mat := ⟨n, n, n * n, fnToList n f⟩

/-- The Mathlib matrix of the same entry function, for stating algebraic
facts about the code. -/
def toMat (n : ℕ) (f : ℕ → ℕ → ℚ) : Matrix (Fin n) (Fin n) ℚ :=
  Matrix.of fun i j => f i j

/-- A rectangular finite-valued matrix from an entry function. -/
def matRect (r c : ℕ) (f : ℕ → ℕ → ℚ) : Mat :=
  ⟨r, c, r * c, (List.range (r * c)).map fun i => JsVal.num (f (i / c) (i % c))⟩

/-- The `n×n` identity instance `new Matrix(n)`. -/
def idMat (n : ℕ) : Mat := newMatrix n n true

/-! ### Concrete instances used by the claims -/

/-- The 3×3 non-identity matrix 2·I₃ used to exhibit the short-circuit bug. -/
def bugB : Mat := ⟨3, 3, 9, [.num 2, .num 0, .num 0, .num 0, .num 2, .num 0, .num 0, .num 0, .num 2]⟩

/-- The 1×1 matrix [[5]]. -/
def matA5 : Mat := ⟨1, 1, 1, [.num 5]⟩

/-- The 2×2 matrix [[1,2],[3,4]]. -/
def mat1234 : Mat := ⟨2, 2, 4, [.num 1, .num 2, .num 3, .num 4]⟩

/-- The singular 2×2 matrix [[3,4],[6,8]]. -/
def singular2 : Mat := ⟨2, 2, 4, [.num 3, .num 4, .num 6, .num 8]⟩

/-- The 3×3 determinant example [[6,1,1],[4,-2,5],[2,8,7]]. -/
def detExample3 : Mat :=
  ⟨3, 3, 9, [.num 6, .num 1, .num 1, .num 4, .num (-2), .num 5, .num 2, .num 8, .num 7]⟩

/-- The entry function of a Mathlib matrix, for transporting inverse and
adjugate entries back into the code-side representation. -/
def ofFinM (n : ℕ) (M : Matrix (Fin n) (Fin n) ℚ) : ℕ → ℕ → ℚ :=
  fun i j => if h : i < n ∧ j < n then M ⟨i, h.1⟩ ⟨j, h.2⟩ else 0

/-- A concrete invertible 2×2 entry function (determinant 3). -/
def invExF : ℕ → ℕ → ℚ := fun i j => if i = j then 2 else 1

/-! ### Basic list and arithmetic lemmas -/

theorem getD_map_range (f : ℕ → JsVal) (N i : ℕ) (d : JsVal) :
    ((List.range N).map f).getD i d = if i < N then f i else d := by
  by_cases h : i < N
  · rw [List.getD_eq_getElem _ _ (by simpa using h)]
    simp [h]
  · rw [List.getD_eq_default _ _ (by simpa using Nat.le_of_not_lt h)]
    simp [h]

theorem map_getD_range (v : List JsVal) (d : JsVal) :
    (List.range v.length).map (fun i => v.getD i d) = v := by
  apply List.ext_getElem (by simp)
  intro i h1 h2
  simp only [List.getElem_map, List.getElem_range]
  rw [List.getD_eq_getElem _ _ h2]

theorem writeFront_of_le (base new : List JsVal) (h : base.length ≤ new.length) :
    writeFront base new = new := by
  simp [writeFront, List.drop_eq_nil_of_le h]

theorem jsAdd_num (a b : ℚ) : jsAdd (.num a) (.num b) = .num (a + b) := rfl

theorem jsMul_num (a b : ℚ) : jsMul (.num a) (.num b) = .num (a * b) := rfl

theorem jsNeg_num (a : ℚ) : jsNeg (.num a) = .num (-a) := rfl

theorem jsSub_num (a b : ℚ) : jsSub (.num a) (.num b) = .num (a - b) := by
  simp [jsSub, jsAdd, jsNeg, toNumber, sub_eq_add_neg]

theorem jsDiv_num (a b : ℚ) (hb : b ≠ 0) : jsDiv (.num a) (.num b) = .num (a / b) := by
  simp [jsDiv, toNumber, hb]

theorem jsEq_num (a b : ℚ) : jsEq (.num a) (.num b) = (a == b) := rfl

theorem truthyReset_num (q : ℚ) : truthyReset (.num q) = .num q := by
  by_cases h : q = 0 <;> simp [truthyReset, truthy, h]

theorem mad_div (n a b : ℕ) (hb : b < n) : (a * n + b) / n = a := by
  rw [mul_comm, Nat.mul_add_div (by omega)]
  simp [Nat.div_eq_of_lt hb]

theorem mad_mod (n a b : ℕ) (hb : b < n) : (a * n + b) % n = b := by
  rw [mul_comm, Nat.mul_add_mod]
  exact Nat.mod_eq_of_lt hb

theorem foldl_jsAdd_num (g : ℕ → ℚ) :
    ∀ (l : List ℕ) (q : ℚ),
      l.foldl (fun acc c => jsAdd acc (.num (g c))) (.num q) = .num (q + (l.map g).sum)
  | [], q => by simp
  | c :: l, q => by
      rw [List.foldl_cons, jsAdd_num, foldl_jsAdd_num g l (q + g c)]
      simp [add_assoc]

theorem foldl_cell_num (g : ℕ → ℚ) :
    ∀ (l : List ℕ) (q : ℚ),
      l.foldl (fun v k => jsAdd (truthyReset v) (.num (g k))) (.num q) = .num (q + (l.map g).sum)
  | [], q => by simp
  | c :: l, q => by
      rw [List.foldl_cons, truthyReset_num, jsAdd_num, foldl_cell_num g l (q + g c)]
      simp [add_assoc]

theorem foldl_cell_undef (g : ℕ → ℚ) (m : ℕ) :
    (List.range (m + 1)).foldl (fun v k => jsAdd (truthyReset v) (.num (g k))) JsVal.undef =
      .num (((List.range (m + 1)).map g).sum) := by
  rw [List.range_succ_eq_map, List.foldl_cons, List.foldl_map]
  have h0 : jsAdd (truthyReset JsVal.undef) (.num (g 0)) = .num (0 + g 0) := by
    simp [truthyReset, truthy, jsAdd, toNumber]
  rw [h0]
  rw [foldl_cell_num (fun k => g k.succ) (List.range m) (0 + g 0)]
  simp only [List.map_cons, List.sum_cons, List.map_map, zero_add]
  rfl

theorem list_range_map_sum (g : ℕ → ℚ) (n : ℕ) :
    ((List.range n).map g).sum = ∑ i ∈ Finset.range n, g i := by
  induction n with
  | zero => simp
  | succ k ih => rw [List.range_succ, List.map_append, List.sum_append, Finset.sum_range_succ, ih]; simp

/-! ### Easy structural lemmas about the matrix operations -/

theorem clone_eq_self (m : Mat) (h : m.values.length = m.length) : m.clone = m := by
  unfold Mat.clone Mat.copy newMatrix
  have hv : (List.range m.length).map m.get = m.values := by
    rw [← h]; exact map_getD_range m.values JsVal.undef
  by_cases hc : m.length = m.rows * m.cols
  · simp [Mat.get, hc, hv]
    simp [← hc, hv]
  · simp [Mat.get, hc, hv]

theorem matRect_values_length (r c : ℕ) (f : ℕ → ℕ → ℚ) :
    (matRect r c f).values.length = (matRect r c f).length := by
  simp [matRect]

theorem matRect_get (r c : ℕ) (f : ℕ → ℕ → ℚ) (i : ℕ) :
    (matRect r c f).get i = if i < r * c then .num (f (i / c) (i % c)) else JsVal.undef := by
  show ((List.range (r * c)).map fun i => JsVal.num (f (i / c) (i % c))).getD i JsVal.undef = _
  exact getD_map_range _ _ _ _

theorem matOfFn_get (n : ℕ) (f : ℕ → ℕ → ℚ) (i : ℕ) :
    (matOfFn n f).get i = if i < n * n then .num (f (i / n) (i % n)) else JsVal.undef := by
  show ((List.range (n * n)).map fun i => JsVal.num (f (i / n) (i % n))).getD i JsVal.undef = _
  exact getD_map_range _ _ _ _

theorem matOfFn_eq_matRect (n : ℕ) (f : ℕ → ℕ → ℚ) : matOfFn n f = matRect n n f := rfl

theorem jsOrNat_some_self (a : ℕ) : jsOrNat (some a) a = a := by
  cases a <;> simp [jsOrNat]

/-- C3: the identity short-circuit is not bit-identical to the plain
left-to-right fold: with an identity receiver and a shape-incompatible 3×3
argument the shortcut copies the argument (so the receiver becomes 3×3)
while the plain fold skips it as a shape mismatch; with the scalar argument
0 the shortcut bails out and leaves the receiver untouched while the plain
fold turns every slot into NaN. -/
theorem multiply_shortcut_diverges_from_plain_fold :
    Mat.multiply (idMat 2) [.mat bugB] ≠ Mat.multiplyPlain (idMat 2) [.mat bugB] ∧
    Mat.multiplyPlain (idMat 2) [.mat bugB] = idMat 2 ∧
    Mat.multiply (idMat 2) [.mat bugB] = bugB ∧
    Mat.multiply (idMat 2) [.scalar (.num 0)] = idMat 2 ∧
    Mat.multiply (idMat 2) [.scalar (.num 0)] ≠ Mat.multiplyPlain (idMat 2) [.scalar (.num 0)] := by
  with_unfolding_all decide

/-- C9: the 1×3 matrix [1,0,0] passes the positional isIdentity test although
it is not square, and multiply silently skips it even though its row count
matches the receiver's column count, leaving [[5]] unchanged instead of
producing the 1×3 product. -/
theorem multiply_skips_positional_identity :
    (⟨1, 3, 3, [.num 1, .num 0, .num 0]⟩ : Mat).isIdentity = true ∧
    (⟨1, 3, 3, [.num 1, .num 0, .num 0]⟩ : Mat).rows ≠ (⟨1, 3, 3, [.num 1, .num 0, .num 0]⟩ : Mat).cols ∧
    (⟨1, 3, 3, [.num 1, .num 0, .num 0]⟩ : Mat).rows = matA5.cols ∧
    matA5.multiply [.mat ⟨1, 3, 3, [.num 1, .num 0, .num 0]⟩] = matA5 := by
  with_unfolding_all decide

/-- C10: for every square matrix, power 0 does not return normally: the
construction of an array of length power - 1 = -1 throws. -/
theorem power_zero_errors (m : Mat) (h : m.rows = m.cols) : m.power 0 = none := by
  simp [Mat.power, h]

/-- Witness for power_zero_errors at the matrix [[1,2],[4,1]]. -/
theorem power_zero_errors_witness : (⟨2, 2, 4, [.num 1, .num 2, .num 4, .num 1]⟩ : Mat).power 0 = none :=
  power_zero_errors _ rfl

/-- C7: setData with a data array of a different length is a no-op unless
both dimension hints are supplied and consistent with the data length; when
they are, the new data replaces the store exactly (stale trailing slots are
cleared). -/
theorem setData_length_guard (m : Mat) (data : List JsVal) (optRows optCols : Option ℕ)
    (hlen : data.length ≠ m.length) :
    ((optRows = none ∨ optCols = none) → m.setData data optRows optCols = m) ∧
    (∀ r c, optRows = some r → optCols = some c → r * c ≠ data.length →
      m.setData data optRows optCols = m) ∧
    (∀ r c, optRows = some r → optCols = some c → r * c = data.length →
      (m.setData data optRows optCols).values = data ∧
      (m.setData data optRows optCols).length = data.length) := by
  refine ⟨?_, ?_, ?_⟩
  · intro h
    unfold Mat.setData
    rcases h with h | h <;> simp [h, hlen]
  · intro r c hr hc hne
    subst hr; subst hc
    unfold Mat.setData
    simp [hlen, hne]
  · intro r c hr hc heq
    subst hr; subst hc
    unfold Mat.setData
    simp [hlen, heq]

/-- Witness for setData_length_guard on the 2×2 matrix [[1,2],[3,4]] with a
2-element data array. -/
theorem setData_length_guard_witness :
    mat1234.setData [.num 7, .num 8] none none = mat1234 ∧
    mat1234.setData [.num 7, .num 8] (some 2) (some 3) = mat1234 ∧
    (mat1234.setData [.num 7, .num 8] (some 1) (some 2)).values = [.num 7, .num 8] ∧
    (mat1234.setData [.num 7, .num 8] (some 1) (some 2)).length = 2 :=
  ⟨(setData_length_guard mat1234 _ none none (by decide)).1 (Or.inl rfl),
   (setData_length_guard mat1234 _ _ _ (by decide)).2.1 2 3 rfl rfl (by decide),
   ((setData_length_guard mat1234 _ _ _ (by decide)).2.2 1 2 rfl rfl (by decide)).1,
   ((setData_length_guard mat1234 _ _ _ (by decide)).2.2 1 2 rfl rfl (by decide)).2⟩

/-- C4 counterexample: a 2×2 receiver that happens to be the identity is NOT
left unchanged by a shape-incompatible argument — the short-circuit copies
the 3×3 argument over it. -/
theorem multiply_mismatch_mutates_identity_receiver :
    bugB.rows ≠ (idMat 2).cols ∧ Mat.multiply (idMat 2) [.mat bugB] ≠ idMat 2 := by
  with_unfolding_all decide

/-- C4 amended: inside the fold loop of multiply, a matrix argument whose row
count differs from the running result's column count is always skipped and
the chain continues; consequently a 2×2 matrix that does not satisfy the
positional identity pattern is left completely unchanged by such an
argument. -/
theorem multiply_shape_mismatch_skipped :
    (∀ (acc B : Mat), acc.cols ≠ B.rows → mulFoldStep acc (.mat B) = acc) ∧
    (∀ (A B : Mat), A.rows = 2 → A.cols = 2 → A.values.length = A.length →
      A.isIdentity = false → B.rows ≠ A.cols → A.multiply [.mat B] = A) := by
  constructor
  · intro acc B h
    by_cases hB : B.isIdentity <;> simp [mulFoldStep, hB, h]
  · intro A B hr hc hlen hid hBr
    unfold Mat.multiply
    rw [hid]
    simp only [Bool.false_eq_true, if_false]
    unfold Mat.multiplyPlain
    have h2 : A.cols ≠ B.rows := fun hh => hBr hh.symm
    have hstep : mulFoldStep ⟨A.rows, A.cols, A.length, (List.range A.length).map A.get⟩ (.mat B) =
        ⟨A.rows, A.cols, A.length, (List.range A.length).map A.get⟩ := by
      by_cases hB : B.isIdentity <;> simp [mulFoldStep, hB, h2]
    simp only [List.foldl_cons, List.foldl_nil, hstep]
    unfold Mat.setData
    have hv : (List.range A.length).map A.get = A.values := by
      rw [← hlen]; exact map_getD_range A.values JsVal.undef
    rw [hv]
    simp only [hlen, ne_eq, not_true_eq_false, false_and, if_false, jsOrNat_some_self]

/-- Witness for multiply_shape_mismatch_skipped: a skipped 3×3 argument on a
2×2 running result, and the unit-test scenario [[1,2],[3,4]] × (1×3 matrix). -/
theorem multiply_shape_mismatch_skipped_witness :
    mulFoldStep mat1234 (.mat bugB) = mat1234 ∧
    mat1234.multiply [.mat ⟨1, 3, 3, [.num 8, .num 10, .num 12]⟩] = mat1234 :=
  ⟨multiply_shape_mismatch_skipped.1 mat1234 bugB (by decide),
   multiply_shape_mismatch_skipped.2 mat1234 ⟨1, 3, 3, [.num 8, .num 10, .num 12]⟩ rfl rfl rfl
     (by with_unfolding_all decide) (by decide)⟩

/-- C5 counterexample: the 1×1 matrix [[0]] is square with determinant 0,
yet invert mutates it (the cofactor of the empty minor is undefined, so the
0-determinant guard sees NaN and the slot is overwritten with NaN). -/
theorem invert_singular_one_by_one_mutates :
    Mat.getDeterminant ⟨1, 1, 1, [.num 0]⟩ = some (.num 0) ∧
    Mat.invert ⟨1, 1, 1, [.num 0]⟩ ≠ ⟨1, 1, 1, [.num 0]⟩ ∧
    Mat.invert ⟨1, 1, 1, [.num 0]⟩ = ⟨1, 1, 1, [.nan]⟩ := by
  with_unfolding_all decide

/-- C6 counterexample: with the scalar 0 the folded chain is not exact — the
1/scale factor is Infinity, every slot becomes NaN on both sides, and equals
is false because NaN is not strictly equal to itself. -/
theorem scalar_fold_not_exact_at_zero :
    Mat.equals (staticMultiply mat1234 [.scalar (.num 0)])
      (staticMultiply mat1234 [.scalar (.num (0 / 2)), .scalar (.num 2)]) = false := by
  with_unfolding_all decide

/-- C1 counterexample: the 1×1 matrix [[5]] has nonzero determinant, yet the
product with its computed inverse is [[NaN]], not the identity (the general
cofactor path reads the determinant of an empty minor as undefined). -/
theorem multiply_invert_dim1_not_identity :
    Mat.getDeterminant matA5 = some (.num 5) ∧
    Mat.equals (matA5.multiply [.mat (matA5.clone.invert)]) (idMat 1) = false := by
  with_unfolding_all decide

/-! ### Reindexing lemmas for removeRow and removeColumn -/

theorem rm_lt (a b N M : ℕ) (ha : a < N) (hb : b < M) : a * M + b < N * M := by
  calc a * M + b < a * M + M := by omega
  _ = (a + 1) * M := by ring
  _ ≤ N * M := Nat.mul_le_mul_right M ha

theorem filter_range_ne (n c : ℕ) (hc : c < n) :
    ((List.range n).filter fun i => i ≠ c) =
      List.range c ++ (List.range (n - 1 - c)).map (fun j => c + 1 + j) := by
  rw [show List.range n = List.range (c + 1 + (n - 1 - c)) from by congr 1; omega]
  rw [List.range_add, List.filter_append, List.range_succ, List.filter_append]
  have h1 : ((List.range c).filter fun i => i ≠ c) = List.range c :=
    List.filter_eq_self.mpr (by intro a ha; simp only [List.mem_range] at ha; simp; omega)
  have h2 : ([c].filter fun i => i ≠ c) = [] := by simp
  have h3 : (((List.range (n - 1 - c)).map fun x => c + 1 + x).filter fun i => i ≠ c) =
      (List.range (n - 1 - c)).map fun x => c + 1 + x := by
    rw [List.filter_map, List.filter_eq_self.mpr]
    intro a ha
    simp only [Function.comp]
    simp
    omega
  rw [h1, h2, h3]
  simp

theorem range_map_skip (c m : ℕ) :
    (List.range (c + m)).map (fun b => if b < c then b else b + 1) =
      List.range c ++ (List.range m).map (fun j => c + 1 + j) := by
  rw [List.range_add, List.map_append]
  congr 1
  · exact (List.map_congr_left (fun a ha => by simp only [List.mem_range] at ha; simp [ha])).trans
      (List.map_id _)
  · rw [List.map_map]
    apply List.map_congr_left
    intro a ha
    simp only [Function.comp]
    rw [if_neg (by omega)]
    omega

theorem filter_range_mod (n c : ℕ) (hc : c < n) :
    ∀ R : ℕ, ((List.range (R * n)).filter fun i => i % n ≠ c) =
      (List.range (R * (n - 1))).map
        (fun k => k / (n - 1) * n + (if k % (n - 1) < c then k % (n - 1) else k % (n - 1) + 1))
  | 0 => by simp
  | R + 1 => by
      rw [show (R + 1) * n = R * n + n from by ring,
        show (R + 1) * (n - 1) = R * (n - 1) + (n - 1) from by ring,
        List.range_add, List.range_add, List.filter_append, List.map_append,
        filter_range_mod n c hc R]
      congr 1
      rw [List.filter_map]
      have hcongr : ((List.range n).filter ((fun i => decide (i % n ≠ c)) ∘ fun x => R * n + x)) =
          (List.range n).filter fun i => i ≠ c := by
        apply List.filter_congr
        intro x hx
        simp only [List.mem_range] at hx
        simp only [Function.comp]
        rw [mad_mod n R x hx]
      rw [hcongr, filter_range_ne n c hc, List.map_map]
      have hpt : ((List.range (n - 1)).map
            ((fun k => k / (n - 1) * n +
              (if k % (n - 1) < c then k % (n - 1) else k % (n - 1) + 1)) ∘ fun x => R * (n - 1) + x)) =
          (List.range (n - 1)).map fun b => R * n + (if b < c then b else b + 1) := by
        apply List.map_congr_left
        intro b hb
        simp only [List.mem_range] at hb
        simp only [Function.comp]
        rw [mad_div (n - 1) R b hb, mad_mod (n - 1) R b hb]
      rw [hpt]
      have hmm : (List.range (n - 1)).map (fun b => R * n + (if b < c then b else b + 1)) =
          (List.range c ++ (List.range (n - 1 - c)).map fun j => c + 1 + j).map
            (fun x => R * n + x) := by
        rw [← range_map_skip c (n - 1 - c), List.map_map]
        rw [show c + (n - 1 - c) = n - 1 from by omega]
        rfl
      rw [hmm, List.map_append, List.map_map]

theorem removeColumn_eq (v : List JsVal) (c n R : ℕ) (hc : c < n) (hv : v.length = R * n) :
    removeColumn v c n =
      (List.range (R * (n - 1))).map
        (fun k => v.getD (k / (n - 1) * n +
          (if k % (n - 1) < c then k % (n - 1) else k % (n - 1) + 1)) JsVal.undef) := by
  unfold removeColumn
  rw [hv, filter_range_mod n c hc R, List.map_map]
  rfl

theorem removeRow_map_range (F : ℕ → JsVal) (N r cols : ℕ) (h : r * cols + cols ≤ N) :
    removeRow ((List.range N).map F) r cols =
      (List.range (N - cols)).map (fun j => F (if j < r * cols then j else j + cols)) := by
  unfold removeRow
  apply List.ext_getElem
  · simp
    omega
  · intro i h1 h2
    simp only [List.getElem_map, List.getElem_range, List.getElem_append, List.length_take,
      List.length_map, List.length_range, List.getElem_take, List.getElem_drop]
    split
    · rw [if_pos (by omega : i < r * cols)]
    · rw [if_neg (by omega : ¬i < r * cols)]
      congr 1
      omega

/-! ### The minor extraction implements row/column deletion -/

theorem minorValues_fnToList (n : ℕ) (f : ℕ → ℕ → ℚ) (r c : ℕ)
    (hr : r < n + 1) (hc : c < n + 1) :
    minorValues (fnToList (n + 1) f) r c (n + 1) =
      fnToList n (fun i j => f (if i < r then i else i + 1) (if j < c then j else j + 1)) := by
  unfold minorValues fnToList
  have hle : r * (n + 1) + (n + 1) ≤ (n + 1) * (n + 1) := by
    calc r * (n + 1) + (n + 1) = (r + 1) * (n + 1) := by ring
    _ ≤ (n + 1) * (n + 1) := Nat.mul_le_mul_right (n + 1) hr
  have hNN : (n + 1) * (n + 1) - (n + 1) = n * (n + 1) := by
    have h : (n + 1) * (n + 1) = n * (n + 1) + (n + 1) := by ring
    omega
  rw [removeRow_map_range _ ((n + 1) * (n + 1)) r (n + 1) hle, hNN]
  have hlen : ((List.range (n * (n + 1))).map
      (fun j => (fun i => JsVal.num (f (i / (n + 1)) (i % (n + 1))))
        (if j < r * (n + 1) then j else j + (n + 1)))).length = n * (n + 1) := by
    simp
  rw [removeColumn_eq _ c (n + 1) n hc hlen]
  simp only [Nat.add_sub_cancel]
  apply List.ext_getElem
  · simp
  · intro i h1 h2
    simp only [List.length_map, List.length_range] at h1 h2
    simp only [List.getElem_map, List.getElem_range]
    have hn0 : 0 < n := by
      rcases Nat.eq_zero_or_pos n with h | h
      · subst h; simp at h2
      · exact h
    have ha : i / n < n := Nat.div_lt_of_lt_mul h2
    have hbh1 : (if i % n < c then i % n else i % n + 1) < n + 1 := by
      have := Nat.mod_lt i hn0
      split <;> omega
    have hidx : i / n * (n + 1) + (if i % n < c then i % n else i % n + 1) < n * (n + 1) :=
      rm_lt _ _ n (n + 1) ha hbh1
    simp only [getD_map_range]
    rw [if_pos hidx]
    by_cases har : i / n < r
    · have hlt : i / n * (n + 1) + (if i % n < c then i % n else i % n + 1) < r * (n + 1) :=
        rm_lt _ _ r (n + 1) har hbh1
      rw [if_pos hlt, mad_div (n + 1) _ _ hbh1, mad_mod (n + 1) _ _ hbh1, if_pos har]
    · have hge : ¬ (i / n * (n + 1) + (if i % n < c then i % n else i % n + 1)) < r * (n + 1) := by
        have hmle : r * (n + 1) ≤ i / n * (n + 1) := Nat.mul_le_mul_right (n + 1) (by omega)
        omega
      rw [if_neg hge,
        show i / n * (n + 1) + (if i % n < c then i % n else i % n + 1) + (n + 1)
          = (i / n + 1) * (n + 1) + (if i % n < c then i % n else i % n + 1) from by ring,
        mad_div (n + 1) _ _ hbh1, mad_mod (n + 1) _ _ hbh1, if_neg har]

/-! ### The determinant computation implements the mathematical determinant -/

theorem toMat_apply (n : ℕ) (f : ℕ → ℕ → ℚ) (i j : Fin n) :
    toMat n f i j = f (i : ℕ) (j : ℕ) := rfl

theorem sign_ite_pow (c : ℕ) :
    (if c % 2 = 1 then JsVal.num (-1) else JsVal.num 1) = .num ((-1) ^ c) := by
  rcases Nat.even_or_odd c with h | h
  · rw [if_neg (by rw [Nat.even_iff.mp h]; omega), h.neg_one_pow]
  · rw [if_pos (Nat.odd_iff.mp h), h.neg_one_pow]

theorem val_succAbove {n : ℕ} (p : Fin (n + 1)) (k : Fin n) :
    ((p.succAbove k : Fin (n + 1)) : ℕ) = if (k : ℕ) < (p : ℕ) then (k : ℕ) else (k : ℕ) + 1 := by
  rw [Fin.succAbove]
  split
  · next h =>
      rw [Fin.lt_def] at h
      simp only [Fin.coe_castSucc] at h ⊢
      rw [if_pos h]
  · next h =>
      rw [Fin.lt_def] at h
      simp only [Fin.coe_castSucc] at h
      simp only [Fin.val_succ]
      rw [if_neg h]

theorem submatrix_toMat_succ (n : ℕ) (f : ℕ → ℕ → ℚ) (j : Fin (n + 1)) :
    (toMat (n + 1) f).submatrix Fin.succ j.succAbove =
      toMat n (fun i k => f (i + 1) (if k < (j : ℕ) then k else k + 1)) := by
  ext i k
  simp only [Matrix.submatrix_apply, toMat, Matrix.of_apply, Fin.val_succ]
  congr 1
  exact val_succAbove j k

theorem fnToList_getD (n : ℕ) (f : ℕ → ℕ → ℚ) (i : ℕ) (hi : i < n * n) :
    (fnToList n f).getD i JsVal.undef = .num (f (i / n) (i % n)) := by
  unfold fnToList
  rw [getD_map_range, if_pos hi]

theorem detVal_toMat (n : ℕ) (hn : 1 ≤ n) (f : ℕ → ℕ → ℚ) :
    detVal n (fnToList n f) = .num (toMat n f).det := by
  induction n using Nat.strong_induction_on generalizing f with
  | _ n ih =>
    match n, hn with
    | 1, _ =>
        rw [Matrix.det_fin_one]
        show (fnToList 1 f).getD 0 JsVal.undef = _
        rw [fnToList_getD 1 f 0 (by norm_num)]
        norm_num [toMat]
    | 2, _ =>
        rw [Matrix.det_fin_two]
        show jsSub (jsMul ((fnToList 2 f).getD 0 JsVal.undef) ((fnToList 2 f).getD 3 JsVal.undef))
          (jsMul ((fnToList 2 f).getD 1 JsVal.undef) ((fnToList 2 f).getD 2 JsVal.undef)) = _
        rw [fnToList_getD 2 f 0 (by norm_num), fnToList_getD 2 f 3 (by norm_num),
          fnToList_getD 2 f 1 (by norm_num), fnToList_getD 2 f 2 (by norm_num),
          jsMul_num, jsMul_num, jsSub_num]
        norm_num [toMat]
    | 3, _ =>
        rw [Matrix.det_fin_three]
        show jsAdd
            (jsSub (jsMul ((fnToList 3 f).getD 0 JsVal.undef)
                (jsSub (jsMul ((fnToList 3 f).getD 4 JsVal.undef) ((fnToList 3 f).getD 8 JsVal.undef))
                  (jsMul ((fnToList 3 f).getD 5 JsVal.undef) ((fnToList 3 f).getD 7 JsVal.undef))))
              (jsMul ((fnToList 3 f).getD 1 JsVal.undef)
                (jsSub (jsMul ((fnToList 3 f).getD 3 JsVal.undef) ((fnToList 3 f).getD 8 JsVal.undef))
                  (jsMul ((fnToList 3 f).getD 5 JsVal.undef) ((fnToList 3 f).getD 6 JsVal.undef)))))
            (jsMul ((fnToList 3 f).getD 2 JsVal.undef)
              (jsSub (jsMul ((fnToList 3 f).getD 3 JsVal.undef) ((fnToList 3 f).getD 7 JsVal.undef))
                (jsMul ((fnToList 3 f).getD 4 JsVal.undef) ((fnToList 3 f).getD 6 JsVal.undef)))) = _
        rw [fnToList_getD 3 f 0 (by norm_num), fnToList_getD 3 f 1 (by norm_num),
          fnToList_getD 3 f 2 (by norm_num), fnToList_getD 3 f 3 (by norm_num),
          fnToList_getD 3 f 4 (by norm_num), fnToList_getD 3 f 5 (by norm_num),
          fnToList_getD 3 f 6 (by norm_num), fnToList_getD 3 f 7 (by norm_num),
          fnToList_getD 3 f 8 (by norm_num)]
        simp only [jsMul_num, jsSub_num, jsAdd_num]
        norm_num [toMat]
        ring
    | (m + 4), _ =>
        have hterm : ∀ col ∈ List.range (m + 4),
            (fun col =>
              jsMul
                (jsMul (if col % 2 = 1 then JsVal.num (-1) else JsVal.num 1)
                  ((fnToList (m + 4) f).getD col JsVal.undef))
                (detVal (m + 3) (minorValues (fnToList (m + 4) f) 0 col (m + 4)))) col =
            (fun col => JsVal.num ((-1) ^ col * f 0 col *
              (toMat (m + 3) fun i k => f (i + 1) (if k < col then k else k + 1)).det)) col := by
          intro col hcol
          rw [List.mem_range] at hcol
          simp only []
          rw [sign_ite_pow]
          have hcol2 : col < (m + 4) * (m + 4) := by
            have h1 : m + 4 ≤ (m + 4) * (m + 4) := Nat.le_mul_of_pos_left _ (by omega)
            omega
          rw [fnToList_getD (m + 4) f col hcol2, Nat.div_eq_of_lt hcol, Nat.mod_eq_of_lt hcol]
          have hminor : minorValues (fnToList (m + 4) f) 0 col (m + 4) =
              fnToList (m + 3) fun i j => f (i + 1) (if j < col then j else j + 1) := by
            rw [minorValues_fnToList (m + 3) f 0 col (by omega) (by omega)]
            have hfe : (fun i j => f (if i < 0 then i else i + 1) (if j < col then j else j + 1)) =
                fun i j => f (i + 1) (if j < col then j else j + 1) := by
              funext i j
              simp
            rw [hfe]
          rw [hminor, ih (m + 3) (by omega) (by omega)]
          rw [jsMul_num, jsMul_num]
        simp only [detVal]
        rw [← List.foldl_map, List.map_congr_left hterm, List.foldl_map]
        rw [foldl_jsAdd_num
          (fun col => (-1) ^ col * f 0 col *
            (toMat (m + 3) fun i k => f (i + 1) (if k < col then k else k + 1)).det)
          (List.range (m + 4)) 0]
        rw [list_range_map_sum, zero_add]
        rw [Matrix.det_succ_row_zero]
        have hsummand : ∀ j : Fin (m + 4),
            (-1) ^ ((j : ℕ)) * (toMat (m + 4) f) 0 j *
              ((toMat (m + 4) f).submatrix Fin.succ j.succAbove).det =
            (fun c => (-1) ^ c * f 0 c *
              (toMat (m + 3) fun i k => f (i + 1) (if k < c then k else k + 1)).det) (j : ℕ) := by
          intro j
          rw [submatrix_toMat_succ (m + 3) f j]
          rfl
        rw [Finset.sum_congr rfl (fun j _ => hsummand j)]
        rw [Fin.sum_univ_eq_sum_range
          (fun c => (-1) ^ c * f 0 c *
            (toMat (m + 3) fun i k => f (i + 1) (if k < c then k else k + 1)).det) (m + 4)]

theorem getDeterminant_matOfFn (n : ℕ) (hn : 1 ≤ n) (f : ℕ → ℕ → ℚ) :
    (matOfFn n f).getDeterminant = some (.num (toMat n f).det) := by
  unfold Mat.getDeterminant matOfFn
  simp only [ne_eq, not_true_eq_false, if_false]
  rw [detVal_toMat n hn f]

/-- C2: getDeterminant returns null (none) for non-square matrices; for
square matrices of sizes 1, 2, 3 it returns the hardcoded closed forms, and
for size >= 4 the first-row Laplace expansion over the mathematical minors;
for A=[[6,1,1],[4,-2,5],[2,8,7]] it returns -306. -/
theorem getDeterminant_spec :
    (∀ m : Mat, m.rows ≠ m.cols → m.getDeterminant = none) ∧
    (∀ m : Mat, m.rows = 1 → m.cols = 1 → m.getDeterminant = some (m.get 0)) ∧
    (∀ m : Mat, m.rows = 2 → m.cols = 2 → m.getDeterminant =
      some (jsSub (jsMul (m.get 0) (m.get 3)) (jsMul (m.get 1) (m.get 2)))) ∧
    (∀ m : Mat, m.rows = 3 → m.cols = 3 → m.getDeterminant =
      some (jsAdd
        (jsSub (jsMul (m.get 0) (jsSub (jsMul (m.get 4) (m.get 8)) (jsMul (m.get 5) (m.get 7))))
          (jsMul (m.get 1) (jsSub (jsMul (m.get 3) (m.get 8)) (jsMul (m.get 5) (m.get 6)))))
        (jsMul (m.get 2) (jsSub (jsMul (m.get 3) (m.get 7)) (jsMul (m.get 4) (m.get 6)))))) ∧
    (∀ (k : ℕ) (f : ℕ → ℕ → ℚ), (matOfFn (k + 4) f).getDeterminant =
      some (.num (∑ j : Fin (k + 4), (-1) ^ (j : ℕ) * toMat (k + 4) f 0 j *
        ((toMat (k + 4) f).submatrix Fin.succ j.succAbove).det))) ∧
    detExample3.getDeterminant = some (.num (-306)) := by
  refine ⟨?_, ?_, ?_, ?_, ?_, ?_⟩
  · intro m h
    simp [Mat.getDeterminant, h]
  · intro m h1 h2
    simp [Mat.getDeterminant, h1, h2, detVal, Mat.get]
  · intro m h1 h2
    simp [Mat.getDeterminant, h1, h2, detVal, Mat.get]
  · intro m h1 h2
    simp [Mat.getDeterminant, h1, h2, detVal, Mat.get]
  · intro k f
    rw [getDeterminant_matOfFn (k + 4) (by omega) f, Matrix.det_succ_row_zero]
  · with_unfolding_all decide

/-- Witness for getDeterminant_spec: a non-square 3×2 matrix, the 1×1 matrix
[[3]], and the 2×2 matrix [[4,6],[3,8]] from the unit tests. -/
theorem getDeterminant_spec_witness :
    (⟨3, 2, 6, []⟩ : Mat).getDeterminant = none ∧
    (⟨1, 1, 1, [.num 3]⟩ : Mat).getDeterminant = some ((⟨1, 1, 1, [.num 3]⟩ : Mat).get 0) ∧
    (⟨2, 2, 4, [.num 4, .num 6, .num 3, .num 8]⟩ : Mat).getDeterminant =
      some (jsSub
        (jsMul ((⟨2, 2, 4, [.num 4, .num 6, .num 3, .num 8]⟩ : Mat).get 0)
          ((⟨2, 2, 4, [.num 4, .num 6, .num 3, .num 8]⟩ : Mat).get 3))
        (jsMul ((⟨2, 2, 4, [.num 4, .num 6, .num 3, .num 8]⟩ : Mat).get 1)
          ((⟨2, 2, 4, [.num 4, .num 6, .num 3, .num 8]⟩ : Mat).get 2))) :=
  ⟨getDeterminant_spec.1 ⟨3, 2, 6, []⟩ (by decide),
   getDeterminant_spec.2.1 ⟨1, 1, 1, [.num 3]⟩ rfl rfl,
   getDeterminant_spec.2.2.1 ⟨2, 2, 4, [.num 4, .num 6, .num 3, .num 8]⟩ rfl rfl⟩

/-! ### The positional identity pattern and equals -/

theorem identity_index_core (n r c : ℕ) (hr : r < n) (hc : c < n) :
    (r * n + c) % (n + 1) = 0 ↔ r = c := by
  constructor
  · intro h
    by_contra hne
    rcases Nat.lt_or_ge r c with hlt | hge
    · obtain ⟨e, he⟩ : ∃ e, c = r + e := ⟨c - r, by omega⟩
      have he1 : 1 ≤ e := by omega
      have h1 : r * (n + 1) = r * n + r := by ring
      have heq : r * n + c = r * (n + 1) + e := by omega
      have hbnd : e < n + 1 := by omega
      rw [heq, mad_mod (n + 1) _ _ hbnd] at h
      omega
    · have hlt2 : c < r := by omega
      obtain ⟨d, hd⟩ : ∃ d, r = c + d + 1 := ⟨r - c - 1, by omega⟩
      obtain ⟨e, he⟩ : ∃ e, d + e = n := ⟨n - d, by omega⟩
      have he1 : 1 ≤ e := by omega
      have h1 : (c + d) * (n + 1) = c * n + d * n + c + d := by ring
      have h2 : r * n = c * n + d * n + n := by rw [hd]; ring
      have heq : r * n + c = (c + d) * (n + 1) + e := by omega
      have hbnd : e < n + 1 := by omega
      rw [heq, mad_mod (n + 1) _ _ hbnd] at h
      omega
  · intro h
    subst h
    have heq : r * n + r = r * (n + 1) := by ring
    rw [heq]
    exact Nat.mul_mod_left _ _

theorem identity_index (n i : ℕ) (hi : i < n * n) : i % (n + 1) = 0 ↔ i / n = i % n := by
  have hn0 : 0 < n := by
    rcases Nat.eq_zero_or_pos n with h | h
    · subst h; simp at hi
    · exact h
  have ha : i / n < n := Nat.div_lt_of_lt_mul hi
  have hb : i % n < n := Nat.mod_lt _ hn0
  have hi2 : i = i / n * n + i % n := by rw [mul_comm]; exact (Nat.div_add_mod i n).symm
  conv_lhs => rw [hi2]
  exact identity_index_core n (i / n) (i % n) ha hb

theorem isIdentity_entries (n : ℕ) (f : ℕ → ℕ → ℚ) (h : (matRect n n f).isIdentity = true)
    (i j : ℕ) (hi : i < n) (hj : j < n) : f i j = if i = j then 1 else 0 := by
  unfold Mat.isIdentity at h
  rw [List.all_eq_true] at h
  have hlt : i * n + j < n * n := rm_lt i j n n hi hj
  have hmem : i * n + j ∈ List.range (matRect n n f).length := by
    simp only [matRect, List.mem_range]
    exact hlt
  have h2 := h _ hmem
  rw [matRect_get, if_pos hlt, mad_div n i j hj, mad_mod n i j hj] at h2
  by_cases hij : i = j
  · have hmod : (i * n + j) % ((matRect n n f).cols + 1) = 0 :=
      (identity_index n _ hlt).mpr (by rw [mad_div n i j hj, mad_mod n i j hj]; exact hij)
    rw [if_pos hmod] at h2
    rw [if_pos hij]
    simpa [jsEq] using h2
  · have hmod : ¬ (i * n + j) % ((matRect n n f).cols + 1) = 0 := by
      intro hc
      have hc2 := (identity_index n _ hlt).mp hc
      rw [mad_div n i j hj, mad_mod n i j hj] at hc2
      exact hij hc2
    rw [if_neg hmod] at h2
    rw [if_neg hij]
    simpa [jsEq] using h2

theorem idMat_eq (n : ℕ) : idMat n = ⟨n, n, n * n, identityValues (n * n) n⟩ := by
  simp [idMat, newMatrix]

theorem equals_idMat (n : ℕ) (f : ℕ → ℕ → ℚ)
    (h : ∀ i j, i < n → j < n → f i j = if i = j then 1 else 0) :
    (matOfFn n f).equals (idMat n) = true := by
  unfold Mat.equals
  rw [if_neg (by rw [idMat_eq]; simp [matOfFn])]
  rw [List.all_eq_true]
  intro i hmem
  rw [List.mem_range] at hmem
  have hlen : (matOfFn n f).length = n * n := rfl
  rw [hlen] at hmem
  rw [matOfFn_get, if_pos hmem]
  have hget2 : (idMat n).get i = (if i % (n + 1) = 0 then JsVal.num 1 else JsVal.num 0) := by
    rw [idMat_eq]
    show (identityValues (n * n) n).getD i JsVal.undef = _
    unfold identityValues
    rw [getD_map_range, if_pos hmem]
  rw [hget2]
  have hn0 : 0 < n := by
    rcases Nat.eq_zero_or_pos n with h0 | h0
    · subst h0; simp at hmem
    · exact h0
  have ha : i / n < n := Nat.div_lt_of_lt_mul hmem
  have hb : i % n < n := Nat.mod_lt _ hn0
  rw [h _ _ ha hb]
  by_cases hij : i / n = i % n
  · rw [if_pos hij, if_pos ((identity_index n i hmem).mpr hij)]
    simp [jsEq]
  · rw [if_neg hij, if_neg (fun hmod => hij ((identity_index n i hmem).mp hmod))]
    simp [jsEq]

/-! ### Multiplication of finite-valued matrices -/

theorem snapshot_eq (m : Mat) (h : m.values.length = m.length) :
    (⟨m.rows, m.cols, m.length, (List.range m.length).map m.get⟩ : Mat) = m := by
  have hv : (List.range m.length).map m.get = m.values := by
    rw [← h]; exact map_getD_range m.values JsVal.undef
  rw [hv]

theorem setData_keep (m : Mat) (data : List JsVal) (hd : data.length = m.length) :
    m.setData data (some m.rows) (some m.cols) = ⟨m.rows, m.cols, m.length, data⟩ := by
  unfold Mat.setData
  simp [hd, jsOrNat_some_self]

theorem matRect_congr (r c : ℕ) (f h : ℕ → ℕ → ℚ)
    (hfh : ∀ i j, i < r → j < c → f i j = h i j) : matRect r c f = matRect r c h := by
  unfold matRect
  congr 1
  apply List.map_congr_left
  intro i hi
  rw [List.mem_range] at hi
  have hc0 : 0 < c := by
    rcases Nat.eq_zero_or_pos c with h0 | h0
    · subst h0; simp at hi
    · exact h0
  have hdiv : i / c < r := Nat.div_lt_of_lt_mul (by rw [mul_comm]; exact hi)
  rw [hfh (i / c) (i % c) hdiv (Nat.mod_lt _ hc0)]

theorem matOfFn_congr (n : ℕ) (f h : ℕ → ℕ → ℚ)
    (hfh : ∀ i j, i < n → j < n → f i j = h i j) : matOfFn n f = matOfFn n h :=
  matRect_congr n n f h hfh

theorem cellVal_matOfFn (n : ℕ) (f g : ℕ → ℕ → ℚ) (row ccol : ℕ)
    (hrow : row < n) (hccol : ccol < n) :
    cellVal (matOfFn n f) (matOfFn n g) row ccol =
      .num (∑ k ∈ Finset.range n, f row k * g k ccol) := by
  unfold cellVal
  obtain ⟨m, rfl⟩ : ∃ m, n = m + 1 := ⟨n - 1, by omega⟩
  have hterm : ∀ crow ∈ List.range (m + 1),
      (fun crow => jsMul ((matOfFn (m + 1) f).get (row * (matOfFn (m + 1) f).cols + crow))
        ((matOfFn (m + 1) g).get (crow * (matOfFn (m + 1) g).cols + ccol))) crow =
      (fun crow => JsVal.num (f row crow * g crow ccol)) crow := by
    intro crow hcrow
    rw [List.mem_range] at hcrow
    simp only []
    have hc1 : (matOfFn (m + 1) f).cols = m + 1 := rfl
    have hc2 : (matOfFn (m + 1) g).cols = m + 1 := rfl
    rw [hc1, hc2, matOfFn_get, matOfFn_get,
      if_pos (rm_lt row crow (m + 1) (m + 1) hrow hcrow),
      if_pos (rm_lt crow ccol (m + 1) (m + 1) hcrow hccol),
      mad_div (m + 1) row crow hcrow, mad_mod (m + 1) row crow hcrow,
      mad_div (m + 1) crow ccol hccol, mad_mod (m + 1) crow ccol hccol, jsMul_num]
  rw [show (matOfFn (m + 1) g).rows = m + 1 from rfl]
  rw [← List.foldl_map, List.map_congr_left hterm, List.foldl_map]
  rw [foldl_cell_undef (fun crow => f row crow * g crow ccol) m]
  rw [list_range_map_sum]

theorem matOfFn_wf (n : ℕ) (f : ℕ → ℕ → ℚ) :
    (matOfFn n f).values.length = (matOfFn n f).length := by
  simp [matOfFn, fnToList]

theorem copy_eq_of_length_eq (m src : Mat) (h : src.length = m.length) :
    m.copy src = ⟨m.rows, m.cols, m.length, (List.range m.length).map src.get⟩ := by
  simp [Mat.copy, h]

theorem copy_matOfFn (n : ℕ) (f g : ℕ → ℕ → ℚ) :
    (matOfFn n f).copy (matOfFn n g) = matOfFn n g := by
  rw [copy_eq_of_length_eq (matOfFn n f) (matOfFn n g) rfl]
  exact snapshot_eq (matOfFn n g) (matOfFn_wf n g)

theorem sum_delta_left (n i j : ℕ) (hi : i < n) (g : ℕ → ℕ → ℚ) :
    ∑ k ∈ Finset.range n, (if i = k then (1 : ℚ) else 0) * g k j = g i j := by
  rw [Finset.sum_eq_single i]
  · rw [if_pos rfl, one_mul]
  · intro k hk hki
    rw [if_neg (fun h => hki h.symm), zero_mul]
  · intro habs
    exact absurd (Finset.mem_range.mpr hi) habs

theorem sum_delta_right (n i j : ℕ) (hj : j < n) (f : ℕ → ℕ → ℚ) :
    ∑ k ∈ Finset.range n, f i k * (if k = j then (1 : ℚ) else 0) = f i j := by
  rw [Finset.sum_eq_single j]
  · rw [if_pos rfl, mul_one]
  · intro k hk hkj
    rw [if_neg hkj, mul_zero]
  · intro habs
    exact absurd (Finset.mem_range.mpr hj) habs

theorem setData_into (m : Mat) (tr tc tl : ℕ) (tv : List JsVal)
    (hd : tv.length = m.length) (hr : tr ≠ 0) (hc : tc ≠ 0) (hlen : tl = tv.length) :
    m.setData tv (some tr) (some tc) = ⟨tr, tc, tl, tv⟩ := by
  unfold Mat.setData
  rw [if_neg (by simp [hd]), if_neg (by simp [hd])]
  simp only [jsOrNat]
  rw [if_neg hr, if_neg hc, hlen]

theorem mulFoldStep_mat_matOfFn (n : ℕ) (f g : ℕ → ℕ → ℚ)
    (hidg : (matOfFn n g).isIdentity = false) :
    mulFoldStep (matOfFn n f) (.mat (matOfFn n g)) =
      matOfFn n (fun i j => ∑ k ∈ Finset.range n, f i k * g k j) := by
  simp only [mulFoldStep, hidg, Bool.false_eq_true, if_false]
  rw [if_neg (show ¬((matOfFn n f).cols ≠ (matOfFn n g).rows) from fun h => h rfl)]
  show (⟨n, n, n * n, (List.range (n * n)).map fun i =>
    cellVal (matOfFn n f) (matOfFn n g) (i / n) (i % n)⟩ : Mat) = _
  unfold matOfFn fnToList
  congr 1
  apply List.map_congr_left
  intro i hi
  rw [List.mem_range] at hi
  have hn0 : 0 < n := by
    rcases Nat.eq_zero_or_pos n with h0 | h0
    · subst h0; simp at hi
    · exact h0
  exact cellVal_matOfFn n f g (i / n) (i % n) (Nat.div_lt_of_lt_mul hi) (Nat.mod_lt _ hn0)

theorem multiply_matOfFn (n : ℕ) (hn : 1 ≤ n) (f g : ℕ → ℕ → ℚ) :
    (matOfFn n f).multiply [.mat (matOfFn n g)] =
      matOfFn n (fun i j => ∑ k ∈ Finset.range n, f i k * g k j) := by
  have hplain : (matOfFn n g).isIdentity = false →
      (matOfFn n f).multiplyPlain [.mat (matOfFn n g)] =
        matOfFn n (fun i j => ∑ k ∈ Finset.range n, f i k * g k j) := by
    intro hidg
    simp only [Mat.multiplyPlain]
    rw [snapshot_eq (matOfFn n f) (matOfFn_wf n f), List.foldl_cons, List.foldl_nil,
      mulFoldStep_mat_matOfFn n f g hidg]
    exact setData_into (matOfFn n f) n n (n * n)
      (fnToList n fun i j => ∑ k ∈ Finset.range n, f i k * g k j)
      (by simp [fnToList, matOfFn]) (by omega) (by omega) (by simp [fnToList])
  have hplain_id : (matOfFn n g).isIdentity = true →
      (matOfFn n f).multiplyPlain [.mat (matOfFn n g)] =
        matOfFn n (fun i j => ∑ k ∈ Finset.range n, f i k * g k j) := by
    intro hidg
    have hgid := isIdentity_entries n g (by rwa [← matOfFn_eq_matRect])
    simp only [Mat.multiplyPlain]
    rw [snapshot_eq (matOfFn n f) (matOfFn_wf n f), List.foldl_cons, List.foldl_nil]
    simp only [mulFoldStep, hidg, eq_self_iff_true, if_true]
    rw [setData_keep (matOfFn n f) _ (matOfFn_wf n f)]
    show matOfFn n f = _
    apply matOfFn_congr
    intro i j hi hj
    rw [Finset.sum_congr rfl (fun k hk => by
      rw [hgid k j (Finset.mem_range.mp hk) hj])]
    rw [sum_delta_right n i j hj f]
  by_cases hidf : (matOfFn n f).isIdentity = true
  · have hfid := isIdentity_entries n f (by rwa [← matOfFn_eq_matRect])
    unfold Mat.multiply
    rw [hidf]
    simp only [if_true]
    by_cases hidg : (matOfFn n g).isIdentity = true
    · have hsl : shortcutLoop (matOfFn n f) [.mat (matOfFn n g)] = none := by
        unfold shortcutLoop
        rw [hidg]
        simp only [if_true]
        rfl
      rw [hsl]
      have hgid := isIdentity_entries n g (by rwa [← matOfFn_eq_matRect])
      apply matOfFn_congr
      intro i j hi hj
      rw [hfid i j hi hj]
      rw [Finset.sum_congr rfl (fun k hk => by
        rw [hfid i k hi (Finset.mem_range.mp hk), hgid k j (Finset.mem_range.mp hk) hj])]
      rw [sum_delta_right n i j hj (fun a b => if a = b then (1 : ℚ) else 0)]
    · have hidg2 : (matOfFn n g).isIdentity = false := Bool.eq_false_iff.mpr hidg
      have hsl : shortcutLoop (matOfFn n f) [.mat (matOfFn n g)] =
          some ((matOfFn n f).copy (matOfFn n g), []) := by
        simp only [shortcutLoop, hidg2, Bool.false_eq_true, if_false]
      rw [hsl, copy_matOfFn]
      simp only [Mat.multiplyPlain]
      rw [snapshot_eq (matOfFn n g) (matOfFn_wf n g), List.foldl_nil]
      rw [setData_keep (matOfFn n g) _ (matOfFn_wf n g)]
      show matOfFn n g = _
      apply matOfFn_congr
      intro i j hi hj
      rw [Finset.sum_congr rfl (fun k hk => by
        rw [hfid i k hi (Finset.mem_range.mp hk)])]
      rw [sum_delta_left n i j hi g]
  · have hidf2 : (matOfFn n f).isIdentity = false := Bool.eq_false_iff.mpr hidf
    unfold Mat.multiply
    rw [hidf2]
    simp only [Bool.false_eq_true, if_false]
    by_cases hidg : (matOfFn n g).isIdentity = true
    · exact hplain_id hidg
    · exact hplain (Bool.eq_false_iff.mpr hidg)

/-! ### Scalar multiplication -/

theorem matRect_wf (r c : ℕ) (f : ℕ → ℕ → ℚ) :
    (matRect r c f).values.length = (matRect r c f).length := by
  simp [matRect]

theorem mulFoldStep_scalar_matRect (r c : ℕ) (f : ℕ → ℕ → ℚ) (s : ℚ) (hs : s ≠ 0) :
    mulFoldStep (matRect r c f) (.scalar (.num s)) = matRect r c (fun i j => f i j * s) := by
  simp only [mulFoldStep]
  rw [jsDiv_num 1 s hs]
  have hval : ∀ q : ℚ,
      jsDiv (jsMul (.num q) (jsMul (.num s) (.num (1 / s)))) (.num (1 / s)) = .num (q * s) := by
    intro q
    rw [jsMul_num, jsMul_num, jsDiv_num _ _ (one_div_ne_zero hs)]
    congr 1
    field_simp
  show (⟨r, c, r * c, ((List.range (r * c)).map fun i => JsVal.num (f (i / c) (i % c))).map
    fun v => jsDiv (jsMul v (jsMul (.num s) (.num (1 / s)))) (.num (1 / s))⟩ : Mat) = _
  rw [List.map_map]
  unfold matRect
  congr 1
  apply List.map_congr_left
  intro i hi
  simp only [Function.comp]
  rw [hval]

theorem multiplyPlain_scalar_matRect (r c : ℕ) (f : ℕ → ℕ → ℚ) (s : ℚ) (hs : s ≠ 0) :
    (matRect r c f).multiplyPlain [.scalar (.num s)] = matRect r c (fun i j => f i j * s) := by
  simp only [Mat.multiplyPlain]
  rw [snapshot_eq (matRect r c f) (matRect_wf r c f), List.foldl_cons, List.foldl_nil,
    mulFoldStep_scalar_matRect r c f s hs]
  exact setData_keep (matRect r c f) (matRect r c fun i j => f i j * s).values
    (by simp [matRect])

theorem multiply_scalar_matRect (r c : ℕ) (f : ℕ → ℕ → ℚ) (s : ℚ) (hs : s ≠ 0) :
    (matRect r c f).multiply [.scalar (.num s)] = matRect r c (fun i j => f i j * s) := by
  by_cases hid : (matRect r c f).isIdentity = true
  · unfold Mat.multiply
    rw [hid]
    simp only [if_true]
    by_cases hs1 : s = 1
    · subst hs1
      have hsl : shortcutLoop (matRect r c f) [.scalar (.num 1)] = none := by
        simp [shortcutLoop, jsEq]
      rw [hsl]
      apply matRect_congr
      intro i j hi hj
      rw [mul_one]
    · have hsl : shortcutLoop (matRect r c f) [.scalar (.num s)] =
          some (matRect r c f, [.scalar (.num s)]) := by
        simp [shortcutLoop, jsEq, truthy, hs1, hs]
      rw [hsl]
      exact multiplyPlain_scalar_matRect r c f s hs
  · unfold Mat.multiply
    rw [Bool.eq_false_iff.mpr hid]
    simp only [Bool.false_eq_true, if_false]
    exact multiplyPlain_scalar_matRect r c f s hs

theorem multiplyPlain_scalar2_matRect (r c : ℕ) (f : ℕ → ℕ → ℚ) (a b : ℚ)
    (ha : a ≠ 0) (hb : b ≠ 0) :
    (matRect r c f).multiplyPlain [.scalar (.num a), .scalar (.num b)] =
      matRect r c (fun i j => f i j * a * b) := by
  simp only [Mat.multiplyPlain]
  rw [snapshot_eq _ (matRect_wf r c f), List.foldl_cons, mulFoldStep_scalar_matRect r c f a ha,
    List.foldl_cons, mulFoldStep_scalar_matRect r c (fun i j => f i j * a) b hb, List.foldl_nil]
  exact setData_keep (matRect r c f) (matRect r c fun i j => f i j * a * b).values
    (by simp [matRect])

theorem multiply_scalar2_matRect (r c : ℕ) (f : ℕ → ℕ → ℚ) (a b : ℚ)
    (ha : a ≠ 0) (hb : b ≠ 0) :
    (matRect r c f).multiply [.scalar (.num a), .scalar (.num b)] =
      matRect r c (fun i j => f i j * a * b) := by
  by_cases hid : (matRect r c f).isIdentity = true
  · unfold Mat.multiply
    rw [hid]
    simp only [if_true]
    by_cases ha1 : a = 1
    · subst ha1
      by_cases hb1 : b = 1
      · subst hb1
        have hsl : shortcutLoop (matRect r c f) [.scalar (.num 1), .scalar (.num 1)] = none := by
          simp [shortcutLoop, jsEq]
        rw [hsl]
        apply matRect_congr
        intro i j hi hj
        rw [mul_one, mul_one]
      · have hsl : shortcutLoop (matRect r c f) [.scalar (.num 1), .scalar (.num b)] =
            some (matRect r c f, [.scalar (.num b)]) := by
          simp [shortcutLoop, jsEq, truthy, hb1, hb]
        rw [hsl]
        show (matRect r c f).multiplyPlain [.scalar (.num b)] = _
        rw [multiplyPlain_scalar_matRect r c f b hb]
        apply matRect_congr
        intro i j hi hj
        rw [mul_one]
    · have hsl : shortcutLoop (matRect r c f) [.scalar (.num a), .scalar (.num b)] =
          some (matRect r c f, [.scalar (.num a), .scalar (.num b)]) := by
        simp [shortcutLoop, jsEq, truthy, ha1, ha]
      rw [hsl]
      exact multiplyPlain_scalar2_matRect r c f a b ha hb
  · unfold Mat.multiply
    rw [Bool.eq_false_iff.mpr hid]
    simp only [Bool.false_eq_true, if_false]
    exact multiplyPlain_scalar2_matRect r c f a b ha hb

theorem equals_matRect (r c : ℕ) (f g : ℕ → ℕ → ℚ)
    (h : ∀ i j, i < r → j < c → f i j = g i j) :
    (matRect r c f).equals (matRect r c g) = true := by
  unfold Mat.equals
  rw [if_neg (by simp [matRect])]
  rw [List.all_eq_true]
  intro i hmem
  rw [List.mem_range] at hmem
  have hlen : (matRect r c f).length = r * c := rfl
  rw [hlen] at hmem
  rw [show (matRect r c f).get i = (if i < r * c then JsVal.num (f (i / c) (i % c)) else JsVal.undef)
    from matRect_get r c f i]
  rw [show (matRect r c g).get i = (if i < r * c then JsVal.num (g (i / c) (i % c)) else JsVal.undef)
    from matRect_get r c g i]
  rw [if_pos hmem, if_pos hmem]
  have hc0 : 0 < c := by
    rcases Nat.eq_zero_or_pos c with h0 | h0
    · subst h0; simp at hmem
    · exact h0
  rw [h (i / c) (i % c) (Nat.div_lt_of_lt_mul (by rwa [mul_comm] at hmem)) (Nat.mod_lt _ hc0)]
  simp [jsEq]

/-- C6 amended: for every finite-valued matrix and every nonzero scalar k,
the chained scalar multiplications are exact:
Matrix.multiply(A, k) equals Matrix.multiply(A, k/2, 2). -/
theorem scalar_fold_exact_of_ne_zero (r c : ℕ) (f : ℕ → ℕ → ℚ) (k : ℚ) (hk : k ≠ 0) :
    Mat.equals (staticMultiply (matRect r c f) [.scalar (.num k)])
      (staticMultiply (matRect r c f) [.scalar (.num (k / 2)), .scalar (.num 2)]) = true := by
  unfold staticMultiply
  rw [clone_eq_self _ (matRect_wf r c f)]
  rw [multiply_scalar_matRect r c f k hk,
    multiply_scalar2_matRect r c f (k / 2) 2 (div_ne_zero hk two_ne_zero) two_ne_zero]
  apply equals_matRect
  intro i j hi hj
  ring

/-- Witness for scalar_fold_exact_of_ne_zero at [[1,2],[3,4]] and k = 6
(the spec's example: multiplying by 6 equals multiplying by 3 then 2). -/
theorem scalar_fold_exact_witness :
    Mat.equals (staticMultiply (matRect 2 2 fun i j => 2 * i + j + 1) [.scalar (.num 6)])
      (staticMultiply (matRect 2 2 fun i j => 2 * i + j + 1)
        [.scalar (.num (6 / 2)), .scalar (.num 2)]) = true :=
  scalar_fold_exact_of_ne_zero 2 2 (fun i j => 2 * i + j + 1) 6 (by norm_num)

/-! ### Elementwise add and subtract -/

theorem addOne_matRect (r c : ℕ) (f g : ℕ → ℕ → ℚ) :
    (matRect r c f).addOne (matRect r c g) = matRect r c (fun i j => f i j + g i j) := by
  unfold Mat.addOne
  rw [if_neg (by simp [matRect])]
  show (⟨r, c, r * c, writeFront (matRect r c f).values
    ((List.range (r * c)).map fun n => jsAdd ((matRect r c f).get n) ((matRect r c g).get n))⟩ :
      Mat) = _
  rw [writeFront_of_le _ _ (by simp [matRect])]
  show _ = (⟨r, c, r * c, (List.range (r * c)).map fun i =>
    JsVal.num (f (i / c) (i % c) + g (i / c) (i % c))⟩ : Mat)
  congr 1
  apply List.map_congr_left
  intro i hi
  rw [List.mem_range] at hi
  rw [show (matRect r c f).get i = (if i < r * c then JsVal.num (f (i / c) (i % c)) else JsVal.undef)
    from matRect_get r c f i]
  rw [show (matRect r c g).get i = (if i < r * c then JsVal.num (g (i / c) (i % c)) else JsVal.undef)
    from matRect_get r c g i]
  rw [if_pos hi, if_pos hi, jsAdd_num]

theorem subtractOne_matRect (r c : ℕ) (f g : ℕ → ℕ → ℚ) :
    (matRect r c f).subtractOne (matRect r c g) = matRect r c (fun i j => f i j - g i j) := by
  unfold Mat.subtractOne
  rw [if_neg (by simp [matRect])]
  show (⟨r, c, r * c, writeFront (matRect r c f).values
    ((List.range (r * c)).map fun n => jsSub ((matRect r c f).get n) ((matRect r c g).get n))⟩ :
      Mat) = _
  rw [writeFront_of_le _ _ (by simp [matRect])]
  show _ = (⟨r, c, r * c, (List.range (r * c)).map fun i =>
    JsVal.num (f (i / c) (i % c) - g (i / c) (i % c))⟩ : Mat)
  congr 1
  apply List.map_congr_left
  intro i hi
  rw [List.mem_range] at hi
  rw [show (matRect r c f).get i = (if i < r * c then JsVal.num (f (i / c) (i % c)) else JsVal.undef)
    from matRect_get r c f i]
  rw [show (matRect r c g).get i = (if i < r * c then JsVal.num (g (i / c) (i % c)) else JsVal.undef)
    from matRect_get r c g i]
  rw [if_pos hi, if_pos hi, jsSub_num]

/-- C8: add and subtract silently skip every argument whose shape does not
match, and apply elementwise += and -= over all positions for matching
arguments; consequently Matrix.add(A, B).subtract(B) equals A for
finite-valued matrices A, B of matching shape. -/
theorem add_subtract_spec :
    (∀ m other : Mat, other.cols ≠ m.cols ∨ other.rows ≠ m.rows →
      m.addOne other = m ∧ m.subtractOne other = m) ∧
    (∀ (r c : ℕ) (f g : ℕ → ℕ → ℚ),
      Mat.equals ((staticAdd (matRect r c f) [matRect r c g]).subtract [matRect r c g])
        (matRect r c f) = true) := by
  constructor
  · intro m other h
    refine ⟨?_, ?_⟩
    · unfold Mat.addOne
      rw [if_pos h]
    · unfold Mat.subtractOne
      rw [if_pos h]
  · intro r c f g
    unfold staticAdd
    rw [clone_eq_self _ (matRect_wf r c f)]
    show Mat.equals (((matRect r c f).addOne (matRect r c g)).subtractOne (matRect r c g))
      (matRect r c f) = true
    rw [addOne_matRect, subtractOne_matRect]
    apply equals_matRect
    intro i j hi hj
    ring

/-- Witness for add_subtract_spec: a shape-mismatched pair, and the
unit-test row vectors [[1,2,3]] and [[2,4,6]]. -/
theorem add_subtract_spec_witness :
    (mat1234.addOne bugB = mat1234 ∧ mat1234.subtractOne bugB = mat1234) ∧
    Mat.equals ((staticAdd (matRect 1 3 fun i j => j + 1) [matRect 1 3 fun i j => 2 * j + 2]).subtract
      [matRect 1 3 fun i j => 2 * j + 2]) (matRect 1 3 fun i j => j + 1) = true :=
  ⟨add_subtract_spec.1 mat1234 bugB (by decide),
   add_subtract_spec.2 1 3 (fun i j => j + 1) (fun i j => 2 * j + 2)⟩

/-! ### The inverse implements the adjugate over the determinant -/


theorem toMat_ofFinM (n : ℕ) (M : Matrix (Fin n) (Fin n) ℚ) : toMat n (ofFinM n M) = M := by
  ext i j
  simp [toMat, ofFinM, i.isLt, j.isLt]

theorem cofactorVal_matOfFn (m : ℕ) (hm : 1 ≤ m) (f : ℕ → ℕ → ℚ) (r c : Fin (m + 1)) :
    cofactorVal (matOfFn (m + 1) f) (r : ℕ) (c : ℕ) =
      .num ((-1) ^ ((r : ℕ) + (c : ℕ)) *
        ((toMat (m + 1) f).submatrix r.succAbove c.succAbove).det) := by
  simp only [cofactorVal]
  have hminor : minorValues (matOfFn (m + 1) f).values (r : ℕ) (c : ℕ)
      (matOfFn (m + 1) f).cols =
      fnToList m (fun i j => f (if i < (r : ℕ) then i else i + 1)
        (if j < (c : ℕ) then j else j + 1)) := by
    show minorValues (fnToList (m + 1) f) (r : ℕ) (c : ℕ) (m + 1) = _
    exact minorValues_fnToList m f _ _ r.isLt c.isLt
  have hsub : (if (matOfFn (m + 1) f).rows - 1 = 0 then (matOfFn (m + 1) f).rows
      else (matOfFn (m + 1) f).rows - 1) = m := by
    show (if m + 1 - 1 = 0 then m + 1 else m + 1 - 1) = m
    rw [if_neg (by omega)]
    omega
  rw [hminor, hsub, detVal_toMat m hm _]
  have hsubm : toMat m (fun i j => f (if i < (r : ℕ) then i else i + 1)
      (if j < (c : ℕ) then j else j + 1)) =
      (toMat (m + 1) f).submatrix r.succAbove c.succAbove := by
    ext i k
    simp only [Matrix.submatrix_apply, toMat, Matrix.of_apply]
    rw [val_succAbove r i, val_succAbove c k]
  rw [hsubm]
  by_cases hr2 : (r : ℕ) % 2 = 1 <;> by_cases hc2 : (c : ℕ) % 2 = 1
  · rw [if_neg (by simp [hr2, hc2])]
    have heven : Even ((r : ℕ) + (c : ℕ)) := Nat.even_iff.mpr (by omega)
    rw [heven.neg_one_pow, one_mul]
  · rw [if_pos (by simp [hr2, hc2])]
    have hodd : Odd ((r : ℕ) + (c : ℕ)) := Nat.odd_iff.mpr (by omega)
    rw [hodd.neg_one_pow, jsMul_num, neg_one_mul, mul_neg_one]
  · rw [if_pos (by simp [hr2, hc2])]
    have hodd : Odd ((r : ℕ) + (c : ℕ)) := Nat.odd_iff.mpr (by omega)
    rw [hodd.neg_one_pow, jsMul_num, neg_one_mul, mul_neg_one]
  · rw [if_neg (by simp [hr2, hc2])]
    have heven : Even ((r : ℕ) + (c : ℕ)) := Nat.even_iff.mpr (by omega)
    rw [heven.neg_one_pow, one_mul]

theorem cofValues_matOfFn (m : ℕ) (hm : 1 ≤ m) (f : ℕ → ℕ → ℚ) :
    ((List.range ((m + 1) * (m + 1))).map fun i =>
      cofactorVal (matOfFn (m + 1) f) (i / (m + 1)) (i % (m + 1))) =
      fnToList (m + 1) (ofFinM (m + 1) (Matrix.of fun r c : Fin (m + 1) =>
        (-1) ^ ((r : ℕ) + (c : ℕ)) *
          ((toMat (m + 1) f).submatrix r.succAbove c.succAbove).det)) := by
  unfold fnToList
  apply List.map_congr_left
  intro i hi
  rw [List.mem_range] at hi
  have ha : i / (m + 1) < m + 1 := Nat.div_lt_of_lt_mul hi
  have hb : i % (m + 1) < m + 1 := Nat.mod_lt _ (by omega)
  rw [show i / (m + 1) = ((⟨i / (m + 1), ha⟩ : Fin (m + 1)) : ℕ) from rfl,
    show i % (m + 1) = ((⟨i % (m + 1), hb⟩ : Fin (m + 1)) : ℕ) from rfl,
    cofactorVal_matOfFn m hm f _ _]
  unfold ofFinM
  rw [dif_pos ⟨ha, hb⟩]
  rfl

theorem origDet_matOfFn (m : ℕ) (hm : 1 ≤ m) (f : ℕ → ℕ → ℚ) :
    ((List.range (m + 1)).foldl (fun acc j => jsAdd acc (jsMul ((matOfFn (m + 1) f).get j)
      ((fnToList (m + 1) (ofFinM (m + 1) (Matrix.of fun r c : Fin (m + 1) =>
        (-1) ^ ((r : ℕ) + (c : ℕ)) *
          ((toMat (m + 1) f).submatrix r.succAbove c.succAbove).det))).getD j JsVal.undef)))
      (.num 0)) = .num ((toMat (m + 1) f).det) := by
  have hfs : Fin.succAbove (0 : Fin (m + 1)) = Fin.succ := funext fun i => Fin.zero_succAbove i
  have hterm : ∀ j ∈ List.range (m + 1),
      (fun j => jsMul ((matOfFn (m + 1) f).get j)
        ((fnToList (m + 1) (ofFinM (m + 1) (Matrix.of fun r c : Fin (m + 1) =>
          (-1) ^ ((r : ℕ) + (c : ℕ)) *
            ((toMat (m + 1) f).submatrix r.succAbove c.succAbove).det))).getD j JsVal.undef)) j =
      (fun j => JsVal.num (f 0 j * ((-1) ^ j * (if hjj : j < m + 1 then
        ((toMat (m + 1) f).submatrix Fin.succ (Fin.succAbove ⟨j, hjj⟩)).det else 0)))) j := by
    intro j hj
    rw [List.mem_range] at hj
    simp only []
    have hjsq : j < (m + 1) * (m + 1) := lt_of_lt_of_le hj (Nat.le_mul_of_pos_left _ (by omega))
    rw [matOfFn_get, if_pos hjsq, fnToList_getD _ _ j hjsq,
      Nat.div_eq_of_lt hj, Nat.mod_eq_of_lt hj]
    unfold ofFinM
    rw [dif_pos ⟨(by omega : 0 < m + 1), hj⟩, dif_pos hj, jsMul_num]
    rw [show (⟨0, (by omega : 0 < m + 1)⟩ : Fin (m + 1)) = (0 : Fin (m + 1)) from rfl]
    rw [Matrix.of_apply]
    rw [show ((0 : Fin (m + 1)) : ℕ) = 0 from rfl, zero_add, hfs]
  rw [← List.foldl_map, List.map_congr_left hterm, List.foldl_map]
  rw [foldl_jsAdd_num _ (List.range (m + 1)) 0, list_range_map_sum, zero_add]
  rw [Matrix.det_succ_row_zero]
  congr 1
  rw [← Fin.sum_univ_eq_sum_range (fun j => f 0 j * ((-1) ^ j * (if hjj : j < m + 1 then
    ((toMat (m + 1) f).submatrix Fin.succ (Fin.succAbove ⟨j, hjj⟩)).det else 0))) (m + 1)]
  apply Finset.sum_congr rfl
  intro j _
  rw [dif_pos j.isLt]
  simp only [Fin.eta]
  rw [show toMat (m + 1) f 0 j = f 0 (j : ℕ) from rfl]
  ring

theorem fnToList_length (n : ℕ) (f : ℕ → ℕ → ℚ) : (fnToList n f).length = n * n := by
  simp [fnToList]

theorem clone_matOfFn (n : ℕ) (f : ℕ → ℕ → ℚ) : (matOfFn n f).clone = matOfFn n f := by
  show (newMatrix n n false).copy (matOfFn n f) = _
  unfold Mat.copy
  rw [if_pos (show (matOfFn n f).length = (newMatrix n n false).length from rfl)]
  show (⟨n, n, n * n, (List.range (n * n)).map (matOfFn n f).get⟩ : Mat) =
    (⟨n, n, n * n, fnToList n f⟩ : Mat)
  congr 1
  rw [show fnToList n f =
    (List.range (n * n)).map (fun i => JsVal.num (f (i / n) (i % n))) from rfl]
  apply List.map_congr_left
  intro i hi
  rw [List.mem_range] at hi
  rw [matOfFn_get, if_pos hi]

theorem jsDiv_one_num (d : ℚ) (hd : d ≠ 0) :
    jsDiv (JsVal.num 1) (JsVal.num d) = JsVal.num (1 / d) := by
  simp [jsDiv, toNumber, hd]

theorem transpose_matOfFn (n : ℕ) (hn : 1 ≤ n) (g : ℕ → ℕ → ℚ) :
    (matOfFn n g).transpose = matOfFn n (fun i j => g j i) := by
  show (matOfFn n g).setData
      (((List.range (n * n)).map fun i => (matOfFn n g).get ((i % n) * n + i / n)) ++
        List.replicate (n * n - n * n) JsVal.undef) (some n) (some n) = _
  rw [Nat.sub_self, List.replicate_zero, List.append_nil]
  rw [setData_into _ n n (n * n) _ (by simp [matOfFn, fnToList]) (by omega) (by omega)
    (by simp)]
  show _ = (⟨n, n, n * n, fnToList n fun i j => g j i⟩ : Mat)
  congr 1
  unfold fnToList
  apply List.map_congr_left
  intro i hi
  rw [List.mem_range] at hi
  have h1 : i % n < n := Nat.mod_lt _ (by omega)
  have h2 : i / n < n := Nat.div_lt_of_lt_mul (by rw [mul_comm] at hi; exact hi)
  rw [matOfFn_get, if_pos (by nlinarith)]
  have hidx : i % n * n + i / n = n * (i % n) + i / n := by ring
  rw [hidx, Nat.mul_add_div (by omega), Nat.div_eq_of_lt h2, Nat.add_zero,
    Nat.mul_add_mod, Nat.mod_eq_of_lt h2]

theorem multiply_scalar_matOfFn (n : ℕ) (g : ℕ → ℕ → ℚ) (s : ℚ) (hs : s ≠ 0) :
    (matOfFn n g).multiply [.scalar (.num s)] = matOfFn n (fun i j => g i j * s) :=
  multiply_scalar_matRect n n g s hs

theorem invert_matOfFn_big (m : ℕ) (hm : 2 ≤ m) (f : ℕ → ℕ → ℚ)
    (hdet : (toMat (m + 1) f).det ≠ 0) :
    (matOfFn (m + 1) f).invert =
      matOfFn (m + 1) (fun i j =>
        ofFinM (m + 1) (Matrix.of fun r c : Fin (m + 1) =>
          (-1) ^ ((r : ℕ) + (c : ℕ)) *
            ((toMat (m + 1) f).submatrix r.succAbove c.succAbove).det) j i *
          (1 / (toMat (m + 1) f).det)) := by
  simp only [Mat.invert]
  rw [if_neg (show ¬((matOfFn (m + 1) f).rows ≠ (matOfFn (m + 1) f).cols) by
    simp [matOfFn])]
  rw [if_neg (show ¬((matOfFn (m + 1) f).rows = 2) by show ¬(m + 1 = 2); omega)]
  show (if ((List.range (m + 1)).foldl (fun acc j => jsAdd acc
        (jsMul ((matOfFn (m + 1) f).get j)
          (((List.range ((m + 1) * (m + 1))).map fun i =>
            cofactorVal (matOfFn (m + 1) f) (i / (m + 1)) (i % (m + 1))).getD j
            JsVal.undef))) (JsVal.num 0)) = JsVal.num 0 then matOfFn (m + 1) f
    else ⟨m + 1, m + 1, (m + 1) * (m + 1), writeFront (matOfFn (m + 1) f).values
      ((Mat.transpose ⟨m + 1, m + 1, (m + 1) * (m + 1),
          (List.range ((m + 1) * (m + 1))).map fun i =>
            cofactorVal (matOfFn (m + 1) f) (i / (m + 1)) (i % (m + 1))⟩).multiply
        [.scalar (jsDiv (JsVal.num 1)
          ((List.range (m + 1)).foldl (fun acc j => jsAdd acc
            (jsMul ((matOfFn (m + 1) f).get j)
              (((List.range ((m + 1) * (m + 1))).map fun i =>
                cofactorVal (matOfFn (m + 1) f) (i / (m + 1)) (i % (m + 1))).getD j
                JsVal.undef))) (JsVal.num 0)))]).values⟩) = _
  rw [cofValues_matOfFn m (by omega) f, origDet_matOfFn m (by omega) f]
  rw [if_neg (show ¬(JsVal.num (toMat (m + 1) f).det = JsVal.num 0) by simp [hdet])]
  rw [jsDiv_one_num _ hdet]
  generalize (Matrix.of fun r c : Fin (m + 1) =>
    ((-1) ^ ((r : ℕ) + (c : ℕ)) *
      ((toMat (m + 1) f).submatrix r.succAbove c.succAbove).det : ℚ)) = CFM
  rw [show (⟨m + 1, m + 1, (m + 1) * (m + 1), fnToList (m + 1) (ofFinM (m + 1) CFM)⟩ :
    Mat) = matOfFn (m + 1) (ofFinM (m + 1) CFM) from rfl]
  rw [transpose_matOfFn (m + 1) (by omega) (ofFinM (m + 1) CFM)]
  rw [multiply_scalar_matOfFn (m + 1) _ (1 / (toMat (m + 1) f).det)
    (one_div_ne_zero hdet)]
  rw [writeFront_of_le _ _ (by simp [matOfFn, fnToList])]
  rfl

theorem invert_matOfFn_two (f : ℕ → ℕ → ℚ) (hdet : (toMat 2 f).det ≠ 0) :
    (matOfFn 2 f).invert =
      matOfFn 2 (fun i j => ofFinM 2 ((toMat 2 f).adjugate) i j * (1 / (toMat 2 f).det)) := by
  simp only [Mat.invert]
  rw [if_neg (show ¬((matOfFn 2 f).rows ≠ (matOfFn 2 f).cols) by simp [matOfFn])]
  rw [if_pos (show (matOfFn 2 f).rows = 2 from rfl)]
  show (if detVal 2 (fnToList 2 f) = JsVal.num 0 then matOfFn 2 f
    else ⟨2, 2, 4, writeFront (fnToList 2 f)
      [jsMul (jsDiv (JsVal.num 1) (detVal 2 (fnToList 2 f))) ((matOfFn 2 f).get 3),
       jsMul (jsDiv (JsVal.num 1) (detVal 2 (fnToList 2 f))) (jsNeg ((matOfFn 2 f).get 1)),
       jsMul (jsDiv (JsVal.num 1) (detVal 2 (fnToList 2 f))) (jsNeg ((matOfFn 2 f).get 2)),
       jsMul (jsDiv (JsVal.num 1) (detVal 2 (fnToList 2 f))) ((matOfFn 2 f).get 0)]⟩) = _
  rw [detVal_toMat 2 (by omega) f]
  rw [if_neg (show ¬(JsVal.num (toMat 2 f).det = JsVal.num 0) by simp [hdet])]
  rw [jsDiv_one_num _ hdet]
  simp only [matOfFn_get]
  norm_num
  rw [writeFront_of_le _ _ (by simp [fnToList])]
  show (⟨2, 2, 4,
    [jsMul (JsVal.num ((toMat 2 f).det)⁻¹) (JsVal.num (f 1 1)),
     jsMul (JsVal.num ((toMat 2 f).det)⁻¹) (jsNeg (JsVal.num (f 0 1))),
     jsMul (JsVal.num ((toMat 2 f).det)⁻¹) (jsNeg (JsVal.num (f 1 0))),
     jsMul (JsVal.num ((toMat 2 f).det)⁻¹) (JsVal.num (f 0 0))]⟩ : Mat) =
    (⟨2, 2, 4,
      [JsVal.num (ofFinM 2 ((toMat 2 f).adjugate) 0 0 * ((toMat 2 f).det)⁻¹),
       JsVal.num (ofFinM 2 ((toMat 2 f).adjugate) 0 1 * ((toMat 2 f).det)⁻¹),
       JsVal.num (ofFinM 2 ((toMat 2 f).adjugate) 1 0 * ((toMat 2 f).det)⁻¹),
       JsVal.num (ofFinM 2 ((toMat 2 f).adjugate) 1 1 * ((toMat 2 f).det)⁻¹)]⟩ : Mat)
  simp only [jsNeg_num, jsMul_num]
  have h00 : ofFinM 2 ((toMat 2 f).adjugate) 0 0 = f 1 1 := by
    simp [ofFinM, Matrix.adjugate_fin_two, toMat, Fin.mk_zero, Fin.mk_one]
  have h01 : ofFinM 2 ((toMat 2 f).adjugate) 0 1 = -(f 0 1) := by
    simp [ofFinM, Matrix.adjugate_fin_two, toMat, Fin.mk_zero, Fin.mk_one]
  have h10 : ofFinM 2 ((toMat 2 f).adjugate) 1 0 = -(f 1 0) := by
    simp [ofFinM, Matrix.adjugate_fin_two, toMat, Fin.mk_zero, Fin.mk_one]
  have h11 : ofFinM 2 ((toMat 2 f).adjugate) 1 1 = f 0 0 := by
    simp [ofFinM, Matrix.adjugate_fin_two, toMat, Fin.mk_zero, Fin.mk_one]
  rw [h00, h01, h10, h11]
  congr 1
  simp [mul_comm]

theorem invert_matOfFn_adj (n : ℕ) (hn : 2 ≤ n) (f : ℕ → ℕ → ℚ)
    (hdet : (toMat n f).det ≠ 0) :
    (matOfFn n f).invert =
      matOfFn n (fun i j => ofFinM n ((toMat n f).adjugate) i j * (1 / (toMat n f).det)) := by
  rcases Nat.lt_or_ge n 3 with h3 | h3
  · have h2 : n = 2 := by omega
    subst h2
    exact invert_matOfFn_two f hdet
  · obtain ⟨m, rfl⟩ : ∃ m, n = m + 1 := ⟨n - 1, by omega⟩
    rw [invert_matOfFn_big m (by omega) f hdet]
    rw [matOfFn_eq_matRect, matOfFn_eq_matRect]
    apply matRect_congr
    intro i j hi hj
    congr 1
    unfold ofFinM
    rw [dif_pos ⟨hj, hi⟩, dif_pos ⟨hi, hj⟩]
    rw [Matrix.adjugate_fin_succ_eq_det_submatrix]
    rw [Matrix.of_apply]

theorem sum_invert_entry (n : ℕ) (f : ℕ → ℕ → ℚ) (hd : (toMat n f).det ≠ 0)
    (i j : ℕ) (hi : i < n) (hj : j < n) :
    (∑ k ∈ Finset.range n,
      f i k * (ofFinM n ((toMat n f).adjugate) k j * (1 / (toMat n f).det))) =
      if i = j then 1 else 0 := by
  rw [← Fin.sum_univ_eq_sum_range
    (fun k => f i k * (ofFinM n ((toMat n f).adjugate) k j * (1 / (toMat n f).det))) n]
  have hterm : ∀ k : Fin n,
      f i (k : ℕ) * (ofFinM n ((toMat n f).adjugate) (k : ℕ) j * (1 / (toMat n f).det)) =
        (toMat n f ⟨i, hi⟩ k * (toMat n f).adjugate k ⟨j, hj⟩) * (1 / (toMat n f).det) := by
    intro k
    have hof : ofFinM n ((toMat n f).adjugate) (k : ℕ) j =
        (toMat n f).adjugate k ⟨j, hj⟩ := by
      unfold ofFinM
      rw [dif_pos ⟨k.isLt, hj⟩]
    rw [hof, ← mul_assoc]
    rfl
  rw [Finset.sum_congr rfl (fun k _ => hterm k), ← Finset.sum_mul, ← Matrix.mul_apply,
    Matrix.mul_adjugate, Matrix.smul_apply, Matrix.one_apply]
  by_cases hij : i = j
  · subst hij
    rw [if_pos rfl, smul_eq_mul, mul_one, mul_one_div, div_self hd, if_pos rfl]
  · rw [if_neg hij, if_neg (show ¬((⟨i, hi⟩ : Fin n) = ⟨j, hj⟩) by
      simp only [Fin.mk.injEq]; exact hij)]
    rw [smul_zero, zero_mul]

/-- C1 (corrected to dimensions `n ≥ 2`): for a square `n×n` matrix with a
nonzero reported determinant, `M.multiply(M.clone().invert())` equals the
`n×n` identity matrix. -/
theorem multiply_clone_invert_identity (n : ℕ) (hn : 2 ≤ n) (f : ℕ → ℕ → ℚ)
    (hdet : (matOfFn n f).getDeterminant ≠ some (JsVal.num 0)) :
    ((matOfFn n f).multiply [.mat ((matOfFn n f).clone.invert)]).equals (idMat n) = true := by
  have hd : (toMat n f).det ≠ 0 := by
    intro h0
    exact hdet (by rw [getDeterminant_matOfFn n (by omega) f, h0])
  rw [clone_matOfFn, invert_matOfFn_adj n hn f hd,
    multiply_matOfFn n (by omega) f _]
  apply equals_idMat
  intro i j hi hj
  exact sum_invert_entry n f hd i j hi hj


theorem invert_nonsquare (m : Mat) (h : m.rows ≠ m.cols) : m.invert = m := by
  simp only [Mat.invert]
  rw [if_pos h]

theorem invert_singular_two (f : ℕ → ℕ → ℚ) (hdet : (toMat 2 f).det = 0) :
    (matOfFn 2 f).invert = matOfFn 2 f := by
  simp only [Mat.invert]
  rw [if_neg (show ¬((matOfFn 2 f).rows ≠ (matOfFn 2 f).cols) by simp [matOfFn])]
  rw [if_pos (show (matOfFn 2 f).rows = 2 from rfl)]
  show (if detVal 2 (fnToList 2 f) = JsVal.num 0 then matOfFn 2 f else _) = _
  rw [detVal_toMat 2 (by omega) f, hdet, if_pos rfl]

theorem invert_singular_big (m : ℕ) (hm : 2 ≤ m) (f : ℕ → ℕ → ℚ)
    (hdet : (toMat (m + 1) f).det = 0) :
    (matOfFn (m + 1) f).invert = matOfFn (m + 1) f := by
  simp only [Mat.invert]
  rw [if_neg (show ¬((matOfFn (m + 1) f).rows ≠ (matOfFn (m + 1) f).cols) by
    simp [matOfFn])]
  rw [if_neg (show ¬((matOfFn (m + 1) f).rows = 2) by show ¬(m + 1 = 2); omega)]
  show (if ((List.range (m + 1)).foldl (fun acc j => jsAdd acc
        (jsMul ((matOfFn (m + 1) f).get j)
          (((List.range ((m + 1) * (m + 1))).map fun i =>
            cofactorVal (matOfFn (m + 1) f) (i / (m + 1)) (i % (m + 1))).getD j
            JsVal.undef))) (JsVal.num 0)) = JsVal.num 0 then matOfFn (m + 1) f
    else _) = _
  rw [cofValues_matOfFn m (by omega) f, origDet_matOfFn m (by omega) f, hdet, if_pos rfl]

theorem invert_singular_square (n : ℕ) (hn : 2 ≤ n) (f : ℕ → ℕ → ℚ)
    (hdet : (matOfFn n f).getDeterminant = some (JsVal.num 0)) :
    (matOfFn n f).invert = matOfFn n f := by
  rw [getDeterminant_matOfFn n (by omega) f] at hdet
  have hd : (toMat n f).det = 0 := by
    have := Option.some.inj hdet
    exact JsVal.num.inj this
  rcases Nat.lt_or_ge n 3 with h3 | h3
  · have h2 : n = 2 := by omega
    subst h2
    exact invert_singular_two f hd
  · obtain ⟨m, rfl⟩ : ∃ m, n = m + 1 := ⟨n - 1, by omega⟩
    exact invert_singular_big m (by omega) f hd

theorem multiply_clone_invert_identity_witness :
    2 ≤ 2 ∧ (matOfFn 2 invExF).getDeterminant ≠ some (JsVal.num 0) ∧
      ((matOfFn 2 invExF).multiply [.mat ((matOfFn 2 invExF).clone.invert)]).equals
        (idMat 2) = true :=
  ⟨by decide, by with_unfolding_all decide,
   multiply_clone_invert_identity 2 (by decide) invExF (by with_unfolding_all decide)⟩

/-- C5 (corrected to exclude the 1×1 case): `invert` leaves the matrix
unchanged when it is non-square, and when it is square of dimension at least
2 with reported determinant zero; in particular `A = [[3,4],[6,8]]` has
determinant `0` and `A.invert()` leaves `A` unchanged. -/
theorem invert_noop_nonsquare_or_singular :
    (∀ m : Mat, m.rows ≠ m.cols → m.invert = m) ∧
    (∀ n : ℕ, 2 ≤ n → ∀ f : ℕ → ℕ → ℚ,
      (matOfFn n f).getDeterminant = some (JsVal.num 0) →
        (matOfFn n f).invert = matOfFn n f) ∧
    singular2.getDeterminant = some (JsVal.num 0) ∧
    singular2.invert = singular2 :=
  ⟨invert_nonsquare, fun n hn f h => invert_singular_square n hn f h,
   by with_unfolding_all decide, by with_unfolding_all decide⟩

theorem invert_noop_nonsquare_or_singular_witness :
    (⟨2, 3, 6, []⟩ : Mat).rows ≠ (⟨2, 3, 6, []⟩ : Mat).cols ∧
      Mat.invert ⟨2, 3, 6, []⟩ = ⟨2, 3, 6, []⟩ :=
  ⟨by decide, invert_noop_nonsquare_or_singular.1 ⟨2, 3, 6, []⟩ (by decide)⟩
